import Mathlib

/-!
Verification of the jddf-fuzz generator (`src/main.rs`).

The program generates random JSON documents conforming to a JDDF schema.
We shallowly embed its data model and its recursive generator `fuzz`,
together with the driver loop of `main`, and prove the specified
properties about them.

Modelling conventions:
* The random source (`rand::Rng`) is modelled as a stream of natural
  numbers (`Rng`); each primitive draw of the rand crate consumes one
  stream element and reduces it to the requested range.  A uniform stream
  thus induces the uniform distributions the source code requests.
* Rust's `HashMap`/`HashSet` are modelled as association lists (`Fields`,
  `List String`) in an arbitrary but fixed iteration order; the source
  relies on no particular order.
* `serde_json::Value` is modelled by `Value`; its `Number` either holds an
  integer (`Value.int`) or a finite double (`Value.float m e`, denoting
  the dyadic rational m / 2^e).
* A Rust `panic!` / `Option::unwrap` failure is modelled by `Gen.fatal`.
* The recursive generator is defined with an explicit recursion-depth
  budget (`fuzzF`); `fuzz` instantiates the budget with the schema size,
  and the adequacy theorems below show any budget of at least the schema
  size yields the same (defined) result, i.e. the recursion of the source
  is well-founded on the schema tree.
-/

/-! ### The random source -/

/-- A random source: the stream of raw draws consumed by the generator.
An exhausted stream keeps yielding 0. -/
abbrev Rng := List Nat

/-- Consume one raw draw from the random source. -/
def rngNext : Rng → Nat × Rng
  | [] => (0, [])
  | n :: t => (n, t)

/-- Models `rng.gen::<bool>()`: a uniform boolean. -/
def gen_bool (rng : Rng) : Bool × Rng :=
  let (n, r) := rngNext rng
  (n % 2 == 1, r)

/-- Models `rng.gen::<uN>()` for an unsigned width `w`: uniform over
[0, 2^w). -/
def gen_unsigned (w : Nat) (rng : Rng) : Nat × Rng :=
  let (n, r) := rngNext rng
  (n % 2 ^ w, r)

/-- Models `rng.gen::<iN>()` for a signed width `w`: a uniform `w`-bit
pattern interpreted in two's complement, i.e. uniform over
[-2^(w-1), 2^(w-1)). -/
def gen_signed (w : Nat) (rng : Rng) : Int × Rng :=
  let (n, r) := rngNext rng
  let b := n % 2 ^ w
  (if b < 2 ^ (w - 1) then (b : Int) else (b : Int) - 2 ^ w, r)

/-- Models `rng.gen_range(lo, hi)` on integers (rand 0.6, half-open
range): uniform over [lo, hi). -/
def gen_range (lo hi : Nat) (rng : Rng) : Nat × Rng :=
  let (n, r) := rngNext rng
  (lo + n % (hi - lo), r)

/-- An IEEE double value: either a finite dyadic rational
`mantissa / 2 ^ exponent`, or one of the non-finite values.  Non-finite
values exist in the type (a double can be NaN or an infinity) but, as
proved below, are never produced by the generator's draws. -/
inductive F64 where
  | finite (mantissa : Nat) (exponent : Nat)
  | nan
  | inf
  | negInf
deriving DecidableEq

/-- Whether a double value is finite. -/
def F64.isFinite : F64 → Bool
  | .finite _ _ => true
  | _ => false

/-- Models `rng.gen::<f64>()`.  The rand crate's `Standard` distribution
for `f64` (the distribution `gen` requests) draws 64 random bits and maps
them to the dyadic grid of [0, 1): it keeps the top 53 bits `m` of the
word and yields `m * 2⁻⁵³`, which `f64` represents exactly.  It never
yields a non-finite value. -/
def gen_f64 (rng : Rng) : F64 × Rng :=
  let (n, r) := rngNext rng
  (.finite (n % 2 ^ 64 / 2 ^ 11) 53, r)

/-- Models `rng.gen::<f32>()`: as `gen_f64`, with 24 retained bits of a
32-bit word, yielding `m * 2⁻²⁴ ∈ [0, 1)` exactly. -/
def gen_f32 (rng : Rng) : F64 × Rng :=
  let (n, r) := rngNext rng
  (.finite (n % 2 ^ 32 / 2 ^ 8) 24, r)

/-- Models `IteratorRandom::choose`: uniformly select one element of a
finite collection, `none` when it is empty. -/
def chooseList {α : Type} : List α → Rng → Option (α × Rng)
  | [], _ => none
  | x :: xs, rng =>
    let (n, r) := rngNext rng
    some ((x :: xs).getD (n % (xs.length + 1)) x, r)

/-! ### The schema model (the `jddf` crate's `Form`) -/

/-- The primitive type payload of a `Form::Type` schema node. -/
inductive Ty where
  | boolean | int8 | uint8 | int16 | uint16 | int32 | uint32
  | float32 | float64 | string | timestamp
deriving DecidableEq

mutual
/-- A JDDF schema node, carrying exactly one form (the `jddf` crate's
`Schema`/`Form`, as consumed by the generator's `match schema.form()`).
`unknown` stands for any form variant the generator does not recognize
(the `_ => panic!()` arm of the source). -/
inductive Schema where
  | empty
  | type (t : Ty)
  | enum (vals : List String)
  | elements (sub : Schema)
  | properties (required : Fields) (optional : Fields) (allowAdditional : Bool)
  | values (sub : Schema)
  | discriminator (tag : String) (mapping : Fields)
  | unknown

/-- A finite map from names to schemas (`HashMap<String, Schema>`),
modelled as an association list in iteration order. -/
inductive Fields where
  | nil
  | cons (name : String) (sub : Schema) (rest : Fields)
end

/-- The entries of a field map, in iteration order. -/
def Fields.toList : Fields → List (String × Schema)
  | .nil => []
  | .cons k s rest => (k, s) :: rest.toList

/-- The key set of a field map. -/
def Fields.keys (fs : Fields) : List String :=
  fs.toList.map Prod.fst

/-- Look a name up in a field map. -/
def Fields.lookupF : Fields → String → Option Schema
  | .nil, _ => none
  | .cons k s rest, key => if k == key then some s else rest.lookupF key

mutual
/-- Size of a schema tree; used as the recursion-depth budget of the
generator, and as a strict bound for every proper subtree. -/
def Schema.size : Schema → Nat
  | .empty => 1
  | .type _ => 1
  | .enum _ => 1
  | .elements sub => 1 + sub.size
  | .properties req opt _ => 1 + req.sizeF + opt.sizeF
  | .values sub => 1 + sub.size
  | .discriminator _ mapping => 1 + mapping.sizeF
  | .unknown => 1
termination_by structural s => s

/-- Size of a field map, dominating the sizes of all its schemas. -/
def Fields.sizeF : Fields → Nat
  | .nil => 1
  | .cons _ s rest => 1 + s.size + rest.sizeF
termination_by structural fs => fs
end

/-! ### JSON values (`serde_json::Value`) -/

/-- A JSON value as built by the generator (`serde_json::Value`).
`float m e` denotes the finite double `m / 2 ^ e`; `obj` holds the
members as an association list. -/
inductive Value where
  | null
  | bool (b : Bool)
  | int (n : Int)
  | float (mantissa : Nat) (exponent : Nat)
  | str (s : String)
  | arr (elems : List Value)
  | obj (members : List (String × Value))

/-- Models serde_json's `From<f64> for Value`: a finite double becomes a
JSON number, a non-finite one becomes `Null`. -/
def valueOfF64 : F64 → Value
  | .finite m e => .float m e
  | .nan => .null
  | .inf => .null
  | .negInf => .null

/-- First-match lookup of a member in an object's association list. -/
def lookupKV : List (String × Value) → String → Option Value
  | [], _ => none
  | (k', v) :: t, k => if k' == k then some v else lookupKV t k

/-- Map insertion with overwrite (`serde_json::Map::insert`): replace the
value at an existing key, or append a new member. -/
def insertKV : List (String × Value) → String → Value → List (String × Value)
  | [], k, v => [(k, v)]
  | (k', v') :: t, k, v =>
    if k' == k then (k', v) :: t else (k', v') :: insertKV t k v

/-- Collect a sequence of (key, value) pairs into a JSON object (the
`collect::<serde_json::Map<_, _>>()` of the source): inserted in order,
later pairs overwriting earlier ones with the same key. -/
def buildObj (ps : List (String × Value)) : List (String × Value) :=
  ps.foldl (fun m p => insertKV m p.1 p.2) []

/-- Remove every member with the given key. -/
def eraseKey (ms : List (String × Value)) (k : String) : List (String × Value) :=
  ms.filter (fun p => p.1 != k)

/-- The keys of an object's member list. -/
def keysOf (ms : List (String × Value)) : List String :=
  ms.map Prod.fst

/-! ### The non-recursive generators of the source -/

/-- The result of a generation step: a value together with the advanced
random source, or `fatal` for a Rust `panic!`/failed `unwrap`. -/
inductive Gen (α : Type) where
  | ok (a : α) (rng : Rng)
  | fatal

/-- `fn fuzz_bool`: a uniform JSON boolean. -/
def fuzz_bool (rng : Rng) : Value × Rng :=
  let (b, r) := gen_bool rng
  (.bool b, r)

/-- `fn fuzz_i8`. -/
def fuzz_i8 (rng : Rng) : Value × Rng :=
  let (i, r) := gen_signed 8 rng
  (.int i, r)

/-- `fn fuzz_u8`. -/
def fuzz_u8 (rng : Rng) : Value × Rng :=
  let (u, r) := gen_unsigned 8 rng
  (.int u, r)

/-- `fn fuzz_i16`. -/
def fuzz_i16 (rng : Rng) : Value × Rng :=
  let (i, r) := gen_signed 16 rng
  (.int i, r)

/-- `fn fuzz_u16`. -/
def fuzz_u16 (rng : Rng) : Value × Rng :=
  let (u, r) := gen_unsigned 16 rng
  (.int u, r)

/-- `fn fuzz_i32`. -/
def fuzz_i32 (rng : Rng) : Value × Rng :=
  let (i, r) := gen_signed 32 rng
  (.int i, r)

/-- `fn fuzz_u32`. -/
def fuzz_u32 (rng : Rng) : Value × Rng :=
  let (u, r) := gen_unsigned 32 rng
  (.int u, r)

/-- `fn fuzz_f32`: `rng.gen::<f32>().into()`. -/
def fuzz_f32 (rng : Rng) : Value × Rng :=
  let (x, r) := gen_f32 rng
  (valueOfF64 x, r)

/-- `fn fuzz_f64`: `rng.gen::<f64>().into()`. -/
def fuzz_f64 (rng : Rng) : Value × Rng :=
  let (x, r) := gen_f64 rng
  (valueOfF64 x, r)

/-- The character list of `fn fuzz_str`: `count` characters, each
uniformly drawn from the printable ASCII range `gen_range(32u8, 127u8)`. -/
def strChars : Nat → Rng → List Char × Rng
  | 0, rng => ([], rng)
  | n + 1, rng =>
    let (c, r₁) := gen_range 32 127 rng
    let (cs, r₂) := strChars n r₁
    (Char.ofNat c :: cs, r₂)

/-- `fn fuzz_str`: a string of length `gen_range(0, 8)` of printable
ASCII characters. -/
def fuzz_str (rng : Rng) : String × Rng :=
  let (len, r₁) := gen_range 0 8 rng
  let (cs, r₂) := strChars len r₁
  (String.mk cs, r₂)

/-- `fn fuzz_string`: `fuzz_str` packaged as a JSON string. -/
def fuzz_string (rng : Rng) : Value × Rng :=
  let (s, r) := fuzz_str rng
  (.str s, r)

/-- Left-pad a number with zeros to two digits. -/
def pad2 (n : Nat) : String :=
  if n < 10 then "0" ++ toString n else toString n

/-- Left-pad a number with zeros to four digits. -/
def pad4 (n : Nat) : String :=
  if n < 10 then "000" ++ toString n
  else if n < 100 then "00" ++ toString n
  else if n < 1000 then "0" ++ toString n
  else toString n

/-- Models chrono's `NaiveDateTime::from_timestamp(secs, 0)` followed by
`DateTime::<Utc>::from_utc(..).to_rfc3339()`: render an epoch-second
offset as an RFC 3339 extended-format UTC string `Y-M-DTH:M:S+00:00`,
using the standard civil-from-days calendar conversion. -/
def epochToRfc3339 (t : Int) : String :=
  let days : Int := Int.fdiv t 86400
  let sod : Nat := (Int.emod t 86400).toNat
  let z : Int := days + 719468
  let era : Int := Int.fdiv z 146097
  let doe : Nat := (z - era * 146097).toNat
  let yoe : Nat := (doe - doe / 1460 + doe / 36524 - doe / 146096) / 365
  let doy : Nat := doe - (365 * yoe + yoe / 4 - yoe / 100)
  let mp : Nat := (5 * doy + 2) / 153
  let d : Nat := doy - (153 * mp + 2) / 5 + 1
  let m : Nat := if mp < 10 then mp + 3 else mp - 9
  let y : Int := yoe + era * 400 + (if m ≤ 2 then 1 else 0)
  let h : Nat := sod / 3600
  let mi : Nat := sod % 3600 / 60
  let s : Nat := sod % 60
  pad4 y.toNat ++ "-" ++ pad2 m ++ "-" ++ pad2 d ++ "T" ++
    pad2 h ++ ":" ++ pad2 mi ++ ":" ++ pad2 s ++ "+00:00"

/-- `fn fuzz_timestamp`: a uniform `i32` epoch-second offset rendered as
an RFC 3339 UTC string. -/
def fuzz_timestamp (rng : Rng) : Value × Rng :=
  let (secs, r) := gen_signed 32 rng
  (.str (epochToRfc3339 secs), r)

/-- `fn fuzz_any` (the Empty-form policy): eagerly build the five
candidate values null / boolean / uint8 / float64 / string — consuming
the random source in that order, as the Rust `vec![..]` does — and choose
one of the five uniformly. -/
def fuzz_any (rng : Rng) : Value × Rng :=
  let (b, r₁) := fuzz_bool rng
  let (u, r₂) := fuzz_u8 r₁
  let (f, r₃) := fuzz_f64 r₂
  let (s, r₄) := fuzz_string r₃
  let (n, r₅) := rngNext r₄
  ([Value.null, b, u, f, s].getD (n % 5) Value.null, r₅)

/-- `fn fuzz_enum`: choose one of the enum's values uniformly; the
`.unwrap()` panics on an empty set. -/
def fuzz_enum (rng : Rng) (vals : List String) : Gen Value :=
  match chooseList vals rng with
  | none => .fatal
  | some (s, r) => .ok (.str s) r

/-- The `allow_additional` loop of `fn fuzz_props`: `count` extra members,
each with a `fuzz_str` key and a `fuzz_any` value. -/
def fuzz_additional : Nat → Rng → List (String × Value) × Rng
  | 0, rng => ([], rng)
  | n + 1, rng =>
    let (k, r₁) := fuzz_str rng
    let (v, r₂) := fuzz_any r₁
    let (rest, r₃) := fuzz_additional n r₂
    ((k, v) :: rest, r₃)

/-! ### The recursive generator `fn fuzz`

`fuzzF fuel rng s` runs the source's `fuzz(rng, s)` with an explicit
recursion-depth budget, `none` meaning the budget was exhausted; each of
the nested-schema loops is a helper taking the one-level-deeper generator
as its functional argument `F`. -/

/-- The element loop of `fn fuzz_elems`: generate `count` values from the
sub-schema via `F`. -/
def elems_rep (F : Rng → Schema → Option (Gen Value)) (sub : Schema) :
    Nat → Rng → Option (Gen (List Value))
  | 0, rng => some (.ok [] rng)
  | count + 1, rng =>
    match F rng sub with
    | none => none
    | some .fatal => some .fatal
    | some (.ok v r₁) =>
      match elems_rep F sub count r₁ with
      | none => none
      | some .fatal => some .fatal
      | some (.ok vs r₂) => some (.ok (v :: vs) r₂)

/-- The member loop of `fn fuzz_values`: `count` members, each with a
`fuzz_string` key and an `F`-generated value. -/
def values_rep (F : Rng → Schema → Option (Gen Value)) (sub : Schema) :
    Nat → Rng → Option (Gen (List (String × Value)))
  | 0, rng => some (.ok [] rng)
  | count + 1, rng =>
    let (k, r₁) := fuzz_str rng
    match F r₁ sub with
    | none => none
    | some .fatal => some .fatal
    | some (.ok v r₂) =>
      match values_rep F sub count r₂ with
      | none => none
      | some .fatal => some .fatal
      | some (.ok kvs r₃) => some (.ok ((k, v) :: kvs) r₃)

/-- The required-keys loop of `fn fuzz_props`: for every `(k, v)` of the
map, push `(k, F(rng, v))`. -/
def props_req (F : Rng → Schema → Option (Gen Value)) :
    Fields → Rng → Option (Gen (List (String × Value)))
  | .nil, rng => some (.ok [] rng)
  | .cons k sub rest, rng =>
    match F rng sub with
    | none => none
    | some .fatal => some .fatal
    | some (.ok v r₁) =>
      match props_req F rest r₁ with
      | none => none
      | some .fatal => some .fatal
      | some (.ok kvs r₂) => some (.ok ((k, v) :: kvs) r₂)

/-- The optional-keys loop of `fn fuzz_props`: for every `(k, v)` of the
map, flip `rng.gen::<bool>()` and, when true, push `(k, F(rng, v))`. -/
def props_opt (F : Rng → Schema → Option (Gen Value)) :
    Fields → Rng → Option (Gen (List (String × Value)))
  | .nil, rng => some (.ok [] rng)
  | .cons k sub rest, rng =>
    let (flip, r₀) := gen_bool rng
    if flip then
      match F r₀ sub with
      | none => none
      | some .fatal => some .fatal
      | some (.ok v r₁) =>
        match props_opt F rest r₁ with
        | none => none
        | some .fatal => some .fatal
        | some (.ok kvs r₂) => some (.ok ((k, v) :: kvs) r₂)
    else
      props_opt F rest r₀

/-- `fn fuzz` with an explicit recursion-depth budget: dispatch on the
schema's form exactly as the source's `match schema.form()`, recursing
with one unit of budget less.  `none` = budget exhausted;
`some .fatal` = the source panics. -/
def fuzzF : Nat → Rng → Schema → Option (Gen Value)
  | 0, _, _ => none
  | _ + 1, rng, .empty =>
    some (let (v, r) := fuzz_any rng; .ok v r)
  | _ + 1, rng, .type .boolean => some (let (v, r) := fuzz_bool rng; .ok v r)
  | _ + 1, rng, .type .int8 => some (let (v, r) := fuzz_i8 rng; .ok v r)
  | _ + 1, rng, .type .uint8 => some (let (v, r) := fuzz_u8 rng; .ok v r)
  | _ + 1, rng, .type .int16 => some (let (v, r) := fuzz_i16 rng; .ok v r)
  | _ + 1, rng, .type .uint16 => some (let (v, r) := fuzz_u16 rng; .ok v r)
  | _ + 1, rng, .type .int32 => some (let (v, r) := fuzz_i32 rng; .ok v r)
  | _ + 1, rng, .type .uint32 => some (let (v, r) := fuzz_u32 rng; .ok v r)
  | _ + 1, rng, .type .float32 => some (let (v, r) := fuzz_f32 rng; .ok v r)
  | _ + 1, rng, .type .float64 => some (let (v, r) := fuzz_f64 rng; .ok v r)
  | _ + 1, rng, .type .string => some (let (v, r) := fuzz_string rng; .ok v r)
  | _ + 1, rng, .type .timestamp => some (let (v, r) := fuzz_timestamp rng; .ok v r)
  | _ + 1, rng, .enum vals => some (fuzz_enum rng vals)
  | fuel + 1, rng, .elements sub =>
    let (n, r₁) := gen_range 0 8 rng
    match elems_rep (fuzzF fuel) sub n r₁ with
    | none => none
    | some .fatal => some .fatal
    | some (.ok vs r₂) => some (.ok (.arr vs) r₂)
  | fuel + 1, rng, .properties req opt allowAdditional =>
    match props_req (fuzzF fuel) req rng with
    | none => none
    | some .fatal => some .fatal
    | some (.ok rvals r₁) =>
      match props_opt (fuzzF fuel) opt r₁ with
      | none => none
      | some .fatal => some .fatal
      | some (.ok ovals r₂) =>
        if allowAdditional then
          let (n, r₃) := gen_range 0 8 r₂
          let (avals, r₄) := fuzz_additional n r₃
          some (.ok (.obj (buildObj (rvals ++ ovals ++ avals))) r₄)
        else
          some (.ok (.obj (buildObj (rvals ++ ovals))) r₂)
  | fuel + 1, rng, .values sub =>
    let (n, r₁) := gen_range 0 8 rng
    match values_rep (fuzzF fuel) sub n r₁ with
    | none => none
    | some .fatal => some .fatal
    | some (.ok kvs r₂) => some (.ok (.obj (buildObj kvs)) r₂)
  | fuel + 1, rng, .discriminator tag mapping =>
    match chooseList mapping.toList rng with
    | none => some .fatal
    | some ((tagVal, sub), r₁) =>
      match fuzzF fuel r₁ sub with
      | none => none
      | some .fatal => some .fatal
      | some (.ok v r₂) =>
        match v with
        | .obj ms => some (.ok (.obj (insertKV ms tag (.str tagVal))) r₂)
        | _ => some .fatal
  | _ + 1, _, .unknown => some .fatal
termination_by structural fuel => fuel

/-- `fn fuzz`: the generator, with the recursion budget instantiated to
the schema size (sufficient by the adequacy theorems below). -/
def fuzz (rng : Rng) (schema : Schema) : Gen Value :=
  (fuzzF schema.size rng schema).getD .fatal

/-! ### The driver loop of `fn main` -/

/-- The continuation condition of `main`'s loop,
`while i != num_values || num_values == 0`. -/
def loopGuard (i numValues : Nat) : Bool :=
  (i != numValues) || (numValues == 0)

/-- `count` successive iterations of the driver loop: one independent
top-level `fuzz` call each, emitting the value before producing the next
(the returned list is in emission order).  `none` when a generation
panicked. -/
def driverRun : Nat → Rng → Schema → Option (List Value × Rng)
  | 0, rng, _ => some ([], rng)
  | count + 1, rng, schema =>
    match fuzz rng schema with
    | .fatal => none
    | .ok v r₁ =>
      match driverRun count r₁ schema with
      | none => none
      | some (vs, r₂) => some (v :: vs, r₂)

/-! ### Conformance (the per-form rules of the specification, §3)

`conformsB s v` decides whether the JSON value `v` conforms to the schema
`s` — the check an independent JDDF validator performs.  It is written
from the specification's conformance table, not from the generator. -/

/-- Whether a value is an integer in the inclusive range `[lo, hi]`. -/
def isIntIn (v : Value) (lo hi : Int) : Bool :=
  match v with
  | .int n => decide (lo ≤ n) && decide (n ≤ hi)
  | _ => false

/-- Whether a value is a JSON number. -/
def isNumber : Value → Bool
  | .int _ => true
  | .float _ _ => true
  | _ => false

/-- Whether a value is a JSON string. -/
def isStr : Value → Bool
  | .str _ => true
  | _ => false

mutual
/-- Conformance of a value to a schema, per form (specification §3):
Empty accepts anything; Type requires the corresponding primitive kind
(for the integer types, an integer within the exact width's range; for
the float types, a number; for string and timestamp, a string); Enum
requires one of the given strings; Elements an array of conforming
elements; Properties an object with every required name present and
conforming, optional names conforming when present, and — unless
allow-additional — no other names; Values an object whose member values
all conform; Discriminator an object whose tag member selects a mapping
entry such that the rest of the object conforms to it.  No value
conforms to an unrecognized form. -/
def conformsB : Schema → Value → Bool
  | .empty, _ => true
  | .type .boolean, v => match v with | .bool _ => true | _ => false
  | .type .int8, v => isIntIn v (-(2 ^ 7)) (2 ^ 7 - 1)
  | .type .uint8, v => isIntIn v 0 (2 ^ 8 - 1)
  | .type .int16, v => isIntIn v (-(2 ^ 15)) (2 ^ 15 - 1)
  | .type .uint16, v => isIntIn v 0 (2 ^ 16 - 1)
  | .type .int32, v => isIntIn v (-(2 ^ 31)) (2 ^ 31 - 1)
  | .type .uint32, v => isIntIn v 0 (2 ^ 32 - 1)
  | .type .float32, v => isNumber v
  | .type .float64, v => isNumber v
  | .type .string, v => isStr v
  | .type .timestamp, v => isStr v
  | .enum vals, v => match v with | .str s => vals.contains s | _ => false
  | .elements sub, v =>
    match v with
    | .arr vs => vs.all (fun w => conformsB sub w)
    | _ => false
  | .properties req opt allowAdditional, v =>
    match v with
    | .obj ms =>
      conformsReq req ms && conformsOpt opt ms &&
        (allowAdditional || ms.all (fun p => (req.keys ++ opt.keys).contains p.1))
    | _ => false
  | .values sub, v =>
    match v with
    | .obj ms => ms.all (fun p => conformsB sub p.2)
    | _ => false
  | .discriminator tag mapping, v =>
    match v with
    | .obj ms =>
      match lookupKV ms tag with
      | some (.str tv) => conformsDiscr mapping tv tag ms
      | _ => false
    | _ => false
  | .unknown, _ => false
termination_by structural s => s

/-- Every required name is present and its value conforms. -/
def conformsReq : Fields → List (String × Value) → Bool
  | .nil, _ => true
  | .cons k sub rest, ms =>
    (match lookupKV ms k with
     | some w => conformsB sub w
     | none => false) && conformsReq rest ms
termination_by structural fs => fs

/-- Every optional name conforms when present. -/
def conformsOpt : Fields → List (String × Value) → Bool
  | .nil, _ => true
  | .cons k sub rest, ms =>
    (match lookupKV ms k with
     | some w => conformsB sub w
     | none => true) && conformsOpt rest ms
termination_by structural fs => fs

/-- The tag value `tv` selects a mapping entry, and the object minus the
tag member conforms to the selected schema. -/
def conformsDiscr : Fields → String → String → List (String × Value) → Bool
  | .nil, _, _, _ => false
  | .cons k sub rest, tv, tag, ms =>
    if k == tv then conformsB sub (.obj (eraseKey ms tag))
    else conformsDiscr rest tv tag ms
termination_by structural fs => fs
end

/-! ### Structural invariants of the schema model -/

/-- Whether a list of keys has no duplicates (a `HashMap`/`HashSet`
invariant). -/
def keysNodup : List String → Bool
  | [] => true
  | k :: t => !(t.contains k) && keysNodup t

/-- Whether a schema node has the Properties form. -/
def isPropsForm : Schema → Bool
  | .properties _ _ _ => true
  | _ => false

mutual
/-- The specification's §3 invariants, strengthened by "no Properties
node allows additional members": key maps have unique keys, required and
optional key sets are disjoint (their concatenation has no duplicates),
every Properties node has allow-additional false, every Discriminator's
mapped schema is an additional-free Properties form not declaring the tag
property, and no node has an unrecognized form. -/
def Schema.wfNoAdd : Schema → Bool
  | .empty => true
  | .type _ => true
  | .enum _ => true
  | .elements sub => sub.wfNoAdd
  | .properties req opt allowAdditional =>
    !allowAdditional && keysNodup (req.keys ++ opt.keys) &&
      req.wfAllNoAdd && opt.wfAllNoAdd
  | .values sub => sub.wfNoAdd
  | .discriminator tag mapping =>
    keysNodup mapping.keys && mapping.wfMapNoAdd tag
  | .unknown => false
termination_by structural s => s

/-- All schemas of a field map satisfy `Schema.wfNoAdd`. -/
def Fields.wfAllNoAdd : Fields → Bool
  | .nil => true
  | .cons _ s rest => s.wfNoAdd && rest.wfAllNoAdd
termination_by structural fs => fs

/-- Every mapped schema of a discriminator is an additional-free
Properties form that does not declare the tag property, and is itself
well-formed. -/
def Fields.wfMapNoAdd : Fields → String → Bool
  | .nil, _ => true
  | .cons _ s rest, tag =>
    (match s with
     | .properties r o allowAdditional =>
       !allowAdditional && !((r.keys ++ o.keys).contains tag)
     | _ => false) && s.wfNoAdd && rest.wfMapNoAdd tag
termination_by structural fs => fs
end

mutual
/-- The §3 invariants needed for the generator never to panic: every Enum
set is non-empty, every Discriminator mapping is non-empty and maps only
to Properties-form schemas, and no node has an unrecognized form. -/
def Schema.wfTotal : Schema → Bool
  | .empty => true
  | .type _ => true
  | .enum vals => !vals.isEmpty
  | .elements sub => sub.wfTotal
  | .properties req opt _ => req.wfAllTotal && opt.wfAllTotal
  | .values sub => sub.wfTotal
  | .discriminator _ mapping =>
    (match mapping with
     | .nil => false
     | .cons _ _ _ => true) && mapping.wfMapTotal
  | .unknown => false
termination_by structural s => s

/-- All schemas of a field map satisfy `Schema.wfTotal`. -/
def Fields.wfAllTotal : Fields → Bool
  | .nil => true
  | .cons _ s rest => s.wfTotal && rest.wfAllTotal
termination_by structural fs => fs

/-- Every mapped schema of a discriminator has the Properties form and
satisfies `Schema.wfTotal`. -/
def Fields.wfMapTotal : Fields → Bool
  | .nil => true
  | .cons _ s rest => isPropsForm s && s.wfTotal && rest.wfMapTotal
termination_by structural fs => fs
end

/-! ### The claims under examination, stated as written -/

/-- The non-finite part of the claim about `fuzz_f64`/`fuzz_f32`, as
stated: for some random-source input, the floating-point value drawn by
`rng.gen::<f64>()` (resp. `f32`) is non-finite (NaN or an infinity). -/
def C2Stated : Prop :=
  ∃ rng : Rng, ((gen_f64 rng).1.isFinite = false) ∨ ((gen_f32 rng).1.isFinite = false)

/-- The claim about `fuzz_props`, as stated: for every Properties schema
with disjoint required and optional key maps (and any allow-additional
flag), the generated value is an object in which every required key is
present with a conforming value, every optional key conforms when
present, and, when allow-additional is false, no key outside
required ∪ optional appears. -/
def C4Stated : Prop :=
  ∀ (req opt : Fields) (allowAdditional : Bool) (rng : Rng) (v : Value) (r' : Rng),
    keysNodup (req.keys ++ opt.keys) = true →
    fuzz rng (.properties req opt allowAdditional) = .ok v r' →
    ∃ ms, v = .obj ms ∧
      (∀ k sub, (k, sub) ∈ req.toList →
        ∃ w, lookupKV ms k = some w ∧ conformsB sub w = true) ∧
      (∀ k sub w, (k, sub) ∈ opt.toList → lookupKV ms k = some w →
        conformsB sub w = true) ∧
      (allowAdditional = false → ∀ k, k ∈ keysOf ms → k ∈ req.keys ++ opt.keys)

/-! ### Size lemmas -/

theorem Schema.size_pos (s : Schema) : 0 < s.size := by
  cases s <;> (simp only [Schema.size]; omega)

theorem Fields.sizeF_pos (fs : Fields) : 0 < fs.sizeF := by
  cases fs <;> (simp only [Fields.sizeF]; omega)

theorem Fields.mem_size : (fs : Fields) → ∀ (k : String) (sub : Schema),
    (k, sub) ∈ fs.toList → sub.size < fs.sizeF
  | .nil => by intro k sub h; simp [Fields.toList] at h
  | .cons k' s' rest => by
    intro k sub h
    simp only [Fields.toList, List.mem_cons, Prod.mk.injEq] at h
    rcases h with ⟨h1, h2⟩ | h
    · subst h2; simp only [Fields.sizeF]; omega
    · have ih := Fields.mem_size rest k sub h
      simp only [Fields.sizeF]; omega
termination_by structural fs => fs

theorem getD_mem_or {α : Type} :
    ∀ (l : List α) (i : Nat) (d : α), l.getD i d = d ∨ l.getD i d ∈ l := by
  intro l
  induction l with
  | nil => intro i d; left; cases i <;> rfl
  | cons x xs ih =>
    intro i d
    cases i with
    | zero => right; simp
    | succ i =>
      rcases ih i d with h | h
      · left; simpa using h
      · right; simp only [List.getD_cons_succ]; exact List.mem_cons_of_mem x h

theorem chooseList_mem {α : Type} (l : List α) (rng : Rng) (x : α) (r : Rng)
    (h : chooseList l rng = some (x, r)) : x ∈ l := by
  cases l with
  | nil => simp [chooseList] at h
  | cons y ys =>
    rcases hn : rngNext rng with ⟨n, r'⟩
    simp only [chooseList, hn] at h
    injection h with h1
    injection h1 with hx hr
    subst hx
    rcases getD_mem_or (y :: ys) (n % (ys.length + 1)) y with hd | hd
    · rw [hd]; exact List.mem_cons_self y ys
    · exact hd

/-! ### Adequacy of the recursion budget -/

theorem elems_rep_isSome (F : Rng → Schema → Option (Gen Value)) (sub : Schema)
    (H : ∀ rng, (F rng sub).isSome = true) :
    ∀ (count : Nat) (rng : Rng), (elems_rep F sub count rng).isSome = true := by
  intro count
  induction count with
  | zero => intro rng; simp [elems_rep]
  | succ n ih =>
    intro rng
    rcases hF : F rng sub with _ | gr
    · have hs := H rng; rw [hF] at hs; simp at hs
    · cases gr with
      | fatal => simp [elems_rep, hF]
      | ok v r₁ =>
        have hs := ih r₁
        rcases hrec : elems_rep F sub n r₁ with _ | gr₂
        · rw [hrec] at hs; simp at hs
        · cases gr₂ <;> simp [elems_rep, hF, hrec]

theorem values_rep_isSome (F : Rng → Schema → Option (Gen Value)) (sub : Schema)
    (H : ∀ rng, (F rng sub).isSome = true) :
    ∀ (count : Nat) (rng : Rng), (values_rep F sub count rng).isSome = true := by
  intro count
  induction count with
  | zero => intro rng; simp [values_rep]
  | succ n ih =>
    intro rng
    rcases hks : fuzz_str rng with ⟨k, r₁⟩
    rcases hF : F r₁ sub with _ | gr
    · have hs := H r₁; rw [hF] at hs; simp at hs
    · cases gr with
      | fatal => simp [values_rep, hks, hF]
      | ok v r₂ =>
        have hs := ih r₂
        rcases hrec : values_rep F sub n r₂ with _ | gr₂
        · rw [hrec] at hs; simp at hs
        · cases gr₂ <;> simp [values_rep, hks, hF, hrec]

theorem props_req_isSome (F : Rng → Schema → Option (Gen Value)) :
    (fs : Fields) →
    (H : ∀ rng k sub, (k, sub) ∈ fs.toList → (F rng sub).isSome = true) →
    ∀ (rng : Rng), (props_req F fs rng).isSome = true
  | .nil => by intro H rng; simp [props_req]
  | .cons k sub rest => by
    intro H rng
    rcases hF : F rng sub with _ | gr
    · have hs := H rng k sub (by simp [Fields.toList])
      rw [hF] at hs; simp at hs
    · cases gr with
      | fatal => simp [props_req, hF]
      | ok v r₁ =>
        have ih := props_req_isSome F rest
          (fun rng' k' sub' h' => H rng' k' sub'
            (by simp only [Fields.toList, List.mem_cons]; right; exact h')) r₁
        rcases hrec : props_req F rest r₁ with _ | gr₂
        · rw [hrec] at ih; simp at ih
        · cases gr₂ <;> simp [props_req, hF, hrec]
termination_by structural fs => fs

theorem props_opt_isSome (F : Rng → Schema → Option (Gen Value)) :
    (fs : Fields) →
    (H : ∀ rng k sub, (k, sub) ∈ fs.toList → (F rng sub).isSome = true) →
    ∀ (rng : Rng), (props_opt F fs rng).isSome = true
  | .nil => by intro H rng; simp [props_opt]
  | .cons k sub rest => by
    intro H rng
    have Hrest : ∀ rng' k' sub', (k', sub') ∈ rest.toList → (F rng' sub').isSome = true :=
      fun rng' k' sub' h' => H rng' k' sub'
        (by simp only [Fields.toList, List.mem_cons]; right; exact h')
    rcases hfl : gen_bool rng with ⟨flip, r₀⟩
    cases flip with
    | false => simpa [props_opt, hfl] using props_opt_isSome F rest Hrest r₀
    | true =>
      rcases hF : F r₀ sub with _ | gr
      · have hs := H r₀ k sub (by simp [Fields.toList])
        rw [hF] at hs; simp at hs
      · cases gr with
        | fatal => simp [props_opt, hfl, hF]
        | ok v r₁ =>
          have ih := props_opt_isSome F rest Hrest r₁
          rcases hrec : props_opt F rest r₁ with _ | gr₂
          · rw [hrec] at ih; simp at ih
          · cases gr₂ <;> simp [props_opt, hfl, hF, hrec]
termination_by structural fs => fs

theorem fuzzF_isSome : ∀ (fuel : Nat) (s : Schema) (rng : Rng),
    s.size ≤ fuel → (fuzzF fuel rng s).isSome = true := by
  intro fuel
  induction fuel with
  | zero => intro s rng h; have := Schema.size_pos s; omega
  | succ fuel ih =>
    intro s rng h
    cases s with
    | empty => simp [fuzzF]
    | type t => cases t <;> simp [fuzzF]
    | enum vals => simp [fuzzF]
    | unknown => simp [fuzzF]
    | elements sub =>
      have hsz : 1 + sub.size ≤ fuel + 1 := by simpa [Schema.size] using h
      have hsub : sub.size ≤ fuel := by omega
      rcases hg : gen_range 0 8 rng with ⟨n, r₁⟩
      have hrep := elems_rep_isSome (fuzzF fuel) sub (fun rng' => ih sub rng' hsub) n r₁
      rcases hrec : elems_rep (fuzzF fuel) sub n r₁ with _ | gr
      · rw [hrec] at hrep; simp at hrep
      · cases gr <;> simp [fuzzF, hg, hrec]
    | values sub =>
      have hsz : 1 + sub.size ≤ fuel + 1 := by simpa [Schema.size] using h
      have hsub : sub.size ≤ fuel := by omega
      rcases hg : gen_range 0 8 rng with ⟨n, r₁⟩
      have hrep := values_rep_isSome (fuzzF fuel) sub (fun rng' => ih sub rng' hsub) n r₁
      rcases hrec : values_rep (fuzzF fuel) sub n r₁ with _ | gr
      · rw [hrec] at hrep; simp at hrep
      · cases gr <;> simp [fuzzF, hg, hrec]
    | properties req opt addl =>
      have hsz : 1 + req.sizeF + opt.sizeF ≤ fuel + 1 := by simpa [Schema.size] using h
      have Hreq : ∀ rng' k' sub', (k', sub') ∈ req.toList →
          (fuzzF fuel rng' sub').isSome = true := by
        intro rng' k' sub' hm
        have := Fields.mem_size req k' sub' hm
        exact ih sub' rng' (by omega)
      have Hopt : ∀ rng' k' sub', (k', sub') ∈ opt.toList →
          (fuzzF fuel rng' sub').isSome = true := by
        intro rng' k' sub' hm
        have := Fields.mem_size opt k' sub' hm
        exact ih sub' rng' (by omega)
      have hr := props_req_isSome (fuzzF fuel) req Hreq rng
      rcases hreq : props_req (fuzzF fuel) req rng with _ | gr
      · rw [hreq] at hr; simp at hr
      · cases gr with
        | fatal => simp [fuzzF, hreq]
        | ok rvals r₁ =>
          have ho := props_opt_isSome (fuzzF fuel) opt Hopt r₁
          rcases hopt : props_opt (fuzzF fuel) opt r₁ with _ | gr₂
          · rw [hopt] at ho; simp at ho
          · cases gr₂ with
            | fatal => simp [fuzzF, hreq, hopt]
            | ok ovals r₂ =>
              cases addl with
              | false => simp [fuzzF, hreq, hopt]
              | true =>
                rcases hg : gen_range 0 8 r₂ with ⟨n, r₃⟩
                rcases ha : fuzz_additional n r₃ with ⟨avals, r₄⟩
                simp [fuzzF, hreq, hopt, hg, ha]
    | discriminator tag mapping =>
      have hsz : 1 + mapping.sizeF ≤ fuel + 1 := by simpa [Schema.size] using h
      rcases hch : chooseList mapping.toList rng with _ | ⟨⟨tv, sub⟩, r₁⟩
      · simp [fuzzF, hch]
      · have hmem := chooseList_mem _ _ _ _ hch
        have hlt := Fields.mem_size mapping tv sub hmem
        have hf := ih sub r₁ (by omega)
        rcases hfz : fuzzF fuel r₁ sub with _ | gr
        · rw [hfz] at hf; simp at hf
        · cases gr with
          | fatal => simp [fuzzF, hch, hfz]
          | ok v r₂ => cases v <;> simp [fuzzF, hch, hfz]

theorem elems_rep_congr (F G : Rng → Schema → Option (Gen Value)) (sub : Schema)
    (H : ∀ rng, F rng sub = G rng sub) :
    ∀ (count : Nat) (rng : Rng), elems_rep F sub count rng = elems_rep G sub count rng := by
  intro count
  induction count with
  | zero => intro rng; rfl
  | succ n ih =>
    intro rng
    simp only [elems_rep, H rng]
    rcases hG : G rng sub with _ | gr
    · rfl
    · cases gr with
      | fatal => rfl
      | ok v r₁ => simp only [ih r₁]

theorem values_rep_congr (F G : Rng → Schema → Option (Gen Value)) (sub : Schema)
    (H : ∀ rng, F rng sub = G rng sub) :
    ∀ (count : Nat) (rng : Rng), values_rep F sub count rng = values_rep G sub count rng := by
  intro count
  induction count with
  | zero => intro rng; rfl
  | succ n ih =>
    intro rng
    rcases hks : fuzz_str rng with ⟨k, r₁⟩
    simp only [values_rep, hks, H r₁]
    rcases hG : G r₁ sub with _ | gr
    · rfl
    · cases gr with
      | fatal => rfl
      | ok v r₂ => simp only [ih r₂]

theorem props_req_congr (F G : Rng → Schema → Option (Gen Value)) :
    (fs : Fields) →
    (H : ∀ rng k sub, (k, sub) ∈ fs.toList → F rng sub = G rng sub) →
    ∀ (rng : Rng), props_req F fs rng = props_req G fs rng
  | .nil => by intro H rng; rfl
  | .cons k sub rest => by
    intro H rng
    have Hrest : ∀ rng' k' sub', (k', sub') ∈ rest.toList → F rng' sub' = G rng' sub' :=
      fun rng' k' sub' h' => H rng' k' sub'
        (by simp only [Fields.toList, List.mem_cons]; right; exact h')
    simp only [props_req, H rng k sub (by simp [Fields.toList])]
    rcases hG : G rng sub with _ | gr
    · rfl
    · cases gr with
      | fatal => rfl
      | ok v r₁ => simp only [props_req_congr F G rest Hrest r₁]
termination_by structural fs => fs

theorem props_opt_congr (F G : Rng → Schema → Option (Gen Value)) :
    (fs : Fields) →
    (H : ∀ rng k sub, (k, sub) ∈ fs.toList → F rng sub = G rng sub) →
    ∀ (rng : Rng), props_opt F fs rng = props_opt G fs rng
  | .nil => by intro H rng; rfl
  | .cons k sub rest => by
    intro H rng
    have Hrest : ∀ rng' k' sub', (k', sub') ∈ rest.toList → F rng' sub' = G rng' sub' :=
      fun rng' k' sub' h' => H rng' k' sub'
        (by simp only [Fields.toList, List.mem_cons]; right; exact h')
    rcases hfl : gen_bool rng with ⟨flip, r₀⟩
    cases flip with
    | false => simp [props_opt, hfl, props_opt_congr F G rest Hrest r₀]
    | true =>
      simp only [props_opt, hfl, H r₀ k sub (by simp [Fields.toList])]
      rcases hG : G r₀ sub with _ | gr
      · simp
      · cases gr with
        | fatal => simp
        | ok v r₁ => simp [props_opt_congr F G rest Hrest r₁]
termination_by structural fs => fs

theorem fuzzF_congr : ∀ (fuel₁ fuel₂ : Nat) (s : Schema) (rng : Rng),
    s.size ≤ fuel₁ → s.size ≤ fuel₂ → fuzzF fuel₁ rng s = fuzzF fuel₂ rng s := by
  intro fuel₁
  induction fuel₁ with
  | zero => intro fuel₂ s rng h₁ h₂; have := Schema.size_pos s; omega
  | succ fuel₁ ih =>
    intro fuel₂ s rng h₁ h₂
    cases fuel₂ with
    | zero => have := Schema.size_pos s; omega
    | succ fuel₂ =>
      cases s with
      | empty => rfl
      | type t => cases t <;> rfl
      | enum vals => rfl
      | unknown => rfl
      | elements sub =>
        have hsz₁ : 1 + sub.size ≤ fuel₁ + 1 := by simpa [Schema.size] using h₁
        have hsz₂ : 1 + sub.size ≤ fuel₂ + 1 := by simpa [Schema.size] using h₂
        have Hsub : ∀ rng', fuzzF fuel₁ rng' sub = fuzzF fuel₂ rng' sub :=
          fun rng' => ih fuel₂ sub rng' (by omega) (by omega)
        rcases hg : gen_range 0 8 rng with ⟨n, r₁⟩
        simp only [fuzzF, hg, elems_rep_congr (fuzzF fuel₁) (fuzzF fuel₂) sub Hsub n r₁]
      | values sub =>
        have hsz₁ : 1 + sub.size ≤ fuel₁ + 1 := by simpa [Schema.size] using h₁
        have hsz₂ : 1 + sub.size ≤ fuel₂ + 1 := by simpa [Schema.size] using h₂
        have Hsub : ∀ rng', fuzzF fuel₁ rng' sub = fuzzF fuel₂ rng' sub :=
          fun rng' => ih fuel₂ sub rng' (by omega) (by omega)
        rcases hg : gen_range 0 8 rng with ⟨n, r₁⟩
        simp only [fuzzF, hg, values_rep_congr (fuzzF fuel₁) (fuzzF fuel₂) sub Hsub n r₁]
      | properties req opt addl =>
        have hsz₁ : 1 + req.sizeF + opt.sizeF ≤ fuel₁ + 1 := by simpa [Schema.size] using h₁
        have hsz₂ : 1 + req.sizeF + opt.sizeF ≤ fuel₂ + 1 := by simpa [Schema.size] using h₂
        have Hreq : ∀ rng' k' sub', (k', sub') ∈ req.toList →
            fuzzF fuel₁ rng' sub' = fuzzF fuel₂ rng' sub' := by
          intro rng' k' sub' hm
          have := Fields.mem_size req k' sub' hm
          exact ih fuel₂ sub' rng' (by omega) (by omega)
        have Hopt : ∀ rng' k' sub', (k', sub') ∈ opt.toList →
            fuzzF fuel₁ rng' sub' = fuzzF fuel₂ rng' sub' := by
          intro rng' k' sub' hm
          have := Fields.mem_size opt k' sub' hm
          exact ih fuel₂ sub' rng' (by omega) (by omega)
        simp only [fuzzF, props_req_congr (fuzzF fuel₁) (fuzzF fuel₂) req Hreq rng]
        rcases hreq : props_req (fuzzF fuel₂) req rng with _ | gr
        · rfl
        · cases gr with
          | fatal => rfl
          | ok rvals r₁ =>
            simp only [props_opt_congr (fuzzF fuel₁) (fuzzF fuel₂) opt Hopt r₁]
      | discriminator tag mapping =>
        have hsz₁ : 1 + mapping.sizeF ≤ fuel₁ + 1 := by simpa [Schema.size] using h₁
        have hsz₂ : 1 + mapping.sizeF ≤ fuel₂ + 1 := by simpa [Schema.size] using h₂
        rcases hch : chooseList mapping.toList rng with _ | ⟨⟨tv, sub⟩, r₁⟩
        · simp only [fuzzF, hch]
        · have hmem := chooseList_mem _ _ _ _ hch
          have hlt := Fields.mem_size mapping tv sub hmem
          simp only [fuzzF, hch, ih fuel₂ sub r₁ (by omega) (by omega)]

theorem fuzz_eq_fuzzF (s : Schema) (rng : Rng) :
    fuzzF s.size rng s = some (fuzz rng s) := by
  have h := fuzzF_isSome s.size s rng (Nat.le_refl _)
  rcases hf : fuzzF s.size rng s with _ | gr
  · rw [hf] at h; simp at h
  · simp [fuzz, hf]

theorem fuzzF_adequate (fuel : Nat) (s : Schema) (rng : Rng) (h : s.size ≤ fuel) :
    fuzzF fuel rng s = some (fuzz rng s) := by
  rw [fuzzF_congr fuel s.size s rng h (Nat.le_refl _), fuzz_eq_fuzzF]

/-! ### Association-list lemmas for JSON objects -/

theorem lookupKV_insertKV (ms : List (String × Value)) (k : String) (v : Value)
    (k' : String) :
    lookupKV (insertKV ms k v) k' = if k = k' then some v else lookupKV ms k' := by
  induction ms with
  | nil =>
    by_cases h : k = k' <;> simp [insertKV, lookupKV, h]
  | cons p t ih =>
    rcases p with ⟨k₀, v₀⟩
    by_cases h0 : k₀ = k
    · subst h0
      by_cases h2 : k₀ = k' <;> simp [insertKV, lookupKV, h2]
    · by_cases h2 : k₀ = k'
      · subst h2
        have hkk : ¬ (k = k₀) := fun hc => h0 hc.symm
        simp [insertKV, lookupKV, h0, hkk]
      · simp [insertKV, lookupKV, h0, h2, ih]

theorem mem_insertKV (ms : List (String × Value)) (k : String) (v : Value)
    (p : String × Value) (h : p ∈ insertKV ms k v) : p = (k, v) ∨ p ∈ ms := by
  induction ms with
  | nil => simp [insertKV] at h; simp [h]
  | cons q t ih =>
    rcases q with ⟨k₀, v₀⟩
    by_cases h0 : k₀ = k
    · subst h0
      simp only [insertKV, beq_self_eq_true, if_pos] at h
      rcases List.mem_cons.mp h with h | h
      · left; rw [h]
      · right; exact List.mem_cons_of_mem _ h
    · simp only [insertKV, beq_iff_eq, h0, if_neg, not_false_iff] at h
      rcases List.mem_cons.mp h with h | h
      · right; rw [h]; exact List.mem_cons_self _ _
      · rcases ih h with h | h
        · left; exact h
        · right; exact List.mem_cons_of_mem _ h

theorem lookupKV_append (l₁ l₂ : List (String × Value)) (k : String) :
    lookupKV (l₁ ++ l₂) k = (lookupKV l₁ k).or (lookupKV l₂ k) := by
  induction l₁ with
  | nil => simp [lookupKV]
  | cons p t ih =>
    rcases p with ⟨k₀, v₀⟩
    by_cases h : k₀ = k <;> simp [lookupKV, h, ih]

theorem lookupKV_eq_none_iff (ms : List (String × Value)) (k : String) :
    lookupKV ms k = none ↔ k ∉ keysOf ms := by
  induction ms with
  | nil => simp [lookupKV, keysOf]
  | cons p t ih =>
    rcases p with ⟨k₀, v₀⟩
    by_cases h : k₀ = k
    · subst h
      simp [lookupKV, keysOf]
    · have h' : ¬ (k = k₀) := fun hc => h hc.symm
      simp [lookupKV, keysOf, h, h', ih]

theorem lookupKV_isSome_of_mem (ms : List (String × Value)) (k : String)
    (h : k ∈ keysOf ms) : ∃ v, lookupKV ms k = some v := by
  rcases hl : lookupKV ms k with _ | v
  · exact absurd ((lookupKV_eq_none_iff ms k).mp hl) (by simp [h])
  · exact ⟨v, rfl⟩

theorem lookupKV_mem (ms : List (String × Value)) (k : String) (v : Value)
    (h : lookupKV ms k = some v) : (k, v) ∈ ms := by
  induction ms with
  | nil => simp [lookupKV] at h
  | cons p t ih =>
    rcases p with ⟨k₀, v₀⟩
    by_cases h0 : k₀ = k
    · subst h0
      simp only [lookupKV, beq_self_eq_true, if_pos] at h
      injection h with h
      subst h; exact List.mem_cons_self _ _
    · simp only [lookupKV, beq_iff_eq, h0, if_neg, not_false_iff] at h
      exact List.mem_cons_of_mem _ (ih h)

theorem keysNodup_append_intro (l₁ l₂ : List String) (h₁ : keysNodup l₁ = true)
    (h₂ : keysNodup l₂ = true) (hdis : ∀ k ∈ l₁, k ∉ l₂) :
    keysNodup (l₁ ++ l₂) = true := by
  induction l₁ with
  | nil => simpa [keysNodup] using h₂
  | cons k t ih =>
    simp only [keysNodup, Bool.and_eq_true, Bool.not_eq_true'] at h₁
    rcases h₁ with ⟨hk, ht⟩
    simp only [List.cons_append, keysNodup, Bool.and_eq_true, Bool.not_eq_true']
    constructor
    · have h1 : k ∉ t := by
        intro hc
        have : t.contains k = true := by simpa [List.elem_iff] using hc
        rw [this] at hk; exact Bool.noConfusion hk
      have h2 : k ∉ l₂ := hdis k (List.mem_cons_self _ _)
      have : k ∉ t ++ l₂ := by
        intro hc
        rcases List.mem_append.mp hc with hc | hc
        · exact h1 hc
        · exact h2 hc
      simpa [List.elem_iff] using this
    · exact ih ht (fun k' hk' => hdis k' (List.mem_cons_of_mem _ hk'))

theorem keysNodup_iff_nodup (l : List String) : keysNodup l = true ↔ l.Nodup := by
  induction l with
  | nil => simp [keysNodup]
  | cons k t ih =>
    simp only [keysNodup, Bool.and_eq_true, Bool.not_eq_true', List.nodup_cons, ← ih]
    constructor
    · rintro ⟨h1, h2⟩
      refine ⟨?_, h2⟩
      intro hc
      have : t.contains k = true := by simpa [List.elem_iff] using hc
      rw [this] at h1; exact Bool.noConfusion h1
    · rintro ⟨h1, h2⟩
      refine ⟨?_, h2⟩
      have : t.contains k = false := by
        rcases hc : t.contains k with _ | _
        · rfl
        · exact absurd (by simpa [List.elem_iff] using hc) h1
      exact this

theorem keysNodup_append (l₁ l₂ : List String) (h : keysNodup (l₁ ++ l₂) = true) :
    keysNodup l₁ = true ∧ keysNodup l₂ = true ∧ ∀ k ∈ l₁, k ∉ l₂ := by
  rw [keysNodup_iff_nodup, List.nodup_append] at h
  rcases h with ⟨h1, h2, h3⟩
  exact ⟨(keysNodup_iff_nodup l₁).mpr h1, (keysNodup_iff_nodup l₂).mpr h2,
    fun k hk hc => h3 hk hc⟩

theorem assoc_unique {α : Type} (l : List (String × α)) (k : String) (a b : α)
    (hnd : keysNodup (l.map Prod.fst) = true) (ha : (k, a) ∈ l) (hb : (k, b) ∈ l) :
    a = b := by
  induction l with
  | nil => simp at ha
  | cons p t ih =>
    rcases p with ⟨k₀, v₀⟩
    simp only [List.map_cons, keysNodup, Bool.and_eq_true, Bool.not_eq_true'] at hnd
    rcases hnd with ⟨hk₀, hnd⟩
    have hk₀' : k₀ ∉ t.map Prod.fst := by
      intro hc
      have : (t.map Prod.fst).contains k₀ = true := by simpa [List.elem_iff] using hc
      rw [this] at hk₀; exact Bool.noConfusion hk₀
    rcases List.mem_cons.mp ha with ha' | ha' <;> rcases List.mem_cons.mp hb with hb' | hb'
    · rw [Prod.mk.injEq] at ha' hb'
      rw [ha'.2, hb'.2]
    · exfalso
      rw [Prod.mk.injEq] at ha'
      exact hk₀' (by rw [← ha'.1]; exact List.mem_map_of_mem Prod.fst hb')
    · exfalso
      rw [Prod.mk.injEq] at hb'
      exact hk₀' (by rw [← hb'.1]; exact List.mem_map_of_mem Prod.fst ha')
    · exact ih hnd ha' hb'

theorem lookupKV_foldl_insert (ps : List (String × Value)) :
    ∀ (acc : List (String × Value)) (k : String),
    lookupKV (ps.foldl (fun m p => insertKV m p.1 p.2) acc) k =
      (lookupKV ps.reverse k).or (lookupKV acc k) := by
  induction ps with
  | nil => intro acc k; simp [lookupKV]
  | cons p t ih =>
    intro acc k
    simp only [List.foldl_cons, List.reverse_cons]
    rw [ih, lookupKV_append]
    cases h : lookupKV t.reverse k with
    | some v => simp
    | none =>
      rw [lookupKV_insertKV]
      rcases p with ⟨k₀, v₀⟩
      by_cases hk : k₀ = k <;> simp [lookupKV, hk]

theorem lookupKV_buildObj (ps : List (String × Value)) (k : String) :
    lookupKV (buildObj ps) k = lookupKV ps.reverse k := by
  rw [buildObj, lookupKV_foldl_insert]
  simp [lookupKV]

theorem lookupKV_reverse_nodup (ps : List (String × Value)) (k : String)
    (hnd : keysNodup (keysOf ps) = true) :
    lookupKV ps.reverse k = lookupKV ps k := by
  induction ps with
  | nil => rfl
  | cons p t ih =>
    rcases p with ⟨k₀, v₀⟩
    simp only [keysOf, List.map_cons, keysNodup, Bool.and_eq_true,
      Bool.not_eq_true'] at hnd
    rcases hnd with ⟨hk₀, hnd⟩
    have hk₀' : k₀ ∉ keysOf t := by
      intro hc
      have : ((t.map Prod.fst).contains k₀) = true := by
        simpa [List.elem_iff, keysOf] using hc
      rw [this] at hk₀; exact Bool.noConfusion hk₀
    rw [List.reverse_cons, lookupKV_append]
    by_cases hk : k₀ = k
    · subst hk
      have : lookupKV t.reverse k₀ = none := by
        rw [lookupKV_eq_none_iff]
        intro hc
        exact hk₀' (by simpa [keysOf, List.map_reverse] using hc)
      simp [this, lookupKV]
    · rw [ih (by simpa [keysOf] using hnd)]
      cases hl : lookupKV t k with
      | some v => simp [lookupKV, hk, hl]
      | none => simp [lookupKV, hk, hl]

theorem mem_foldl_insert (ps : List (String × Value)) :
    ∀ (acc : List (String × Value)) (p : String × Value),
    p ∈ ps.foldl (fun m q => insertKV m q.1 q.2) acc → p ∈ acc ∨ p ∈ ps := by
  induction ps with
  | nil => intro acc p h; left; exact h
  | cons q t ih =>
    intro acc p h
    rcases ih _ p h with h' | h'
    · rcases mem_insertKV acc q.1 q.2 p h' with h'' | h''
      · right; rw [h'']; exact List.mem_cons_self _ _
      · left; exact h''
    · right; exact List.mem_cons_of_mem _ h'

theorem mem_buildObj (ps : List (String × Value)) (p : String × Value)
    (h : p ∈ buildObj ps) : p ∈ ps := by
  rcases mem_foldl_insert ps [] p h with h' | h'
  · simp at h'
  · exact h'

theorem mem_keysOf_buildObj (ps : List (String × Value)) (k : String) :
    k ∈ keysOf (buildObj ps) ↔ k ∈ keysOf ps := by
  constructor
  · intro h
    rcases lookupKV_isSome_of_mem _ _ h with ⟨v, hv⟩
    rw [lookupKV_buildObj] at hv
    have := lookupKV_mem _ _ _ hv
    have := List.mem_map_of_mem Prod.fst (List.mem_reverse.mp this)
    simpa [keysOf] using this
  · intro h
    rcases lookupKV_isSome_of_mem ps k h with ⟨v, hv⟩
    have hv' : lookupKV (buildObj ps) k = some v ∨ ∃ w, lookupKV (buildObj ps) k = some w := by
      right
      rw [lookupKV_buildObj]
      rcases lookupKV_isSome_of_mem ps.reverse k
        (by simpa [keysOf, List.map_reverse, List.mem_reverse] using h) with ⟨w, hw⟩
      exact ⟨w, hw⟩
    rcases hv' with hv' | ⟨w, hw⟩
    · exact List.mem_map_of_mem Prod.fst (lookupKV_mem _ _ _ hv')
    · exact List.mem_map_of_mem Prod.fst (lookupKV_mem _ _ _ hw)

theorem eraseKey_insertKV (ms : List (String × Value)) (k : String) (v : Value) :
    eraseKey (insertKV ms k v) k = eraseKey ms k := by
  induction ms with
  | nil => simp [insertKV, eraseKey]
  | cons p t ih =>
    rcases p with ⟨k₀, v₀⟩
    by_cases h0 : k₀ = k
    · subst h0
      simp [insertKV, eraseKey]
    · have ih' : List.filter (fun p => p.1 != k) (insertKV t k v) =
          List.filter (fun p => p.1 != k) t := by simpa [eraseKey] using ih
      simp [insertKV, eraseKey, h0, ih']

theorem eraseKey_eq_self (ms : List (String × Value)) (k : String)
    (h : k ∉ keysOf ms) : eraseKey ms k = ms := by
  induction ms with
  | nil => rfl
  | cons p t ih =>
    rcases p with ⟨k₀, v₀⟩
    simp only [keysOf, List.map_cons, List.mem_cons, not_or] at h
    rcases h with ⟨h1, h2⟩
    simp only [eraseKey, List.filter_cons]
    have : (k₀ != k) = true := by simpa [bne] using fun hc => h1 hc.symm
    rw [if_pos this]
    have := ih (by simpa [keysOf] using h2)
    simpa [eraseKey] using this

/-! ### Auxiliary facts about the schema model -/

theorem Fields.keys_nil : Fields.nil.keys = [] := rfl

theorem Fields.keys_cons (k : String) (s : Schema) (rest : Fields) :
    (Fields.cons k s rest).keys = k :: rest.keys := rfl

theorem Fields.wfAllNoAdd_mem : (fs : Fields) → ∀ (k : String) (sub : Schema),
    fs.wfAllNoAdd = true → (k, sub) ∈ fs.toList → sub.wfNoAdd = true
  | .nil => by intro k sub _ h; simp [Fields.toList] at h
  | .cons k' s' rest => by
    intro k sub hwf h
    simp only [Fields.wfAllNoAdd, Bool.and_eq_true] at hwf
    simp only [Fields.toList, List.mem_cons, Prod.mk.injEq] at h
    rcases h with ⟨h1, h2⟩ | h
    · subst h2; exact hwf.1
    · exact Fields.wfAllNoAdd_mem rest k sub hwf.2 h
termination_by structural fs => fs

theorem Fields.wfMapNoAdd_mem : (fs : Fields) → ∀ (tag k : String) (sub : Schema),
    fs.wfMapNoAdd tag = true → (k, sub) ∈ fs.toList →
    (∃ r o, sub = .properties r o false ∧
      ((r.keys ++ o.keys).contains tag) = false) ∧ sub.wfNoAdd = true
  | .nil => by intro tag k sub _ h; simp [Fields.toList] at h
  | .cons k' s' rest => by
    intro tag k sub hwf h
    simp only [Fields.wfMapNoAdd, Bool.and_eq_true] at hwf
    rcases hwf with ⟨⟨hform, hwf'⟩, hrest⟩
    simp only [Fields.toList, List.mem_cons, Prod.mk.injEq] at h
    rcases h with ⟨h1, h2⟩ | h
    · subst h2
      refine ⟨?_, hwf'⟩
      cases sub with
      | properties r o addl =>
        cases addl with
        | false =>
          simp only [Bool.and_eq_true, Bool.not_eq_true'] at hform
          exact ⟨r, o, rfl, hform.2⟩
        | true => simp at hform
      | empty => simp at hform
      | type t => simp at hform
      | enum vals => simp at hform
      | elements s => simp at hform
      | values s => simp at hform
      | discriminator t m => simp at hform
      | unknown => simp at hform
    · exact Fields.wfMapNoAdd_mem rest tag k sub hrest h
termination_by structural fs => fs

theorem Fields.wfAllTotal_mem : (fs : Fields) → ∀ (k : String) (sub : Schema),
    fs.wfAllTotal = true → (k, sub) ∈ fs.toList → sub.wfTotal = true
  | .nil => by intro k sub _ h; simp [Fields.toList] at h
  | .cons k' s' rest => by
    intro k sub hwf h
    simp only [Fields.wfAllTotal, Bool.and_eq_true] at hwf
    simp only [Fields.toList, List.mem_cons, Prod.mk.injEq] at h
    rcases h with ⟨h1, h2⟩ | h
    · subst h2; exact hwf.1
    · exact Fields.wfAllTotal_mem rest k sub hwf.2 h
termination_by structural fs => fs

theorem Fields.wfMapTotal_mem : (fs : Fields) → ∀ (k : String) (sub : Schema),
    fs.wfMapTotal = true → (k, sub) ∈ fs.toList →
    isPropsForm sub = true ∧ sub.wfTotal = true
  | .nil => by intro k sub _ h; simp [Fields.toList] at h
  | .cons k' s' rest => by
    intro k sub hwf h
    simp only [Fields.wfMapTotal, Bool.and_eq_true] at hwf
    rcases hwf with ⟨⟨hform, hwf'⟩, hrest⟩
    simp only [Fields.toList, List.mem_cons, Prod.mk.injEq] at h
    rcases h with ⟨h1, h2⟩ | h
    · subst h2; exact ⟨hform, hwf'⟩
    · exact Fields.wfMapTotal_mem rest k sub hrest h
termination_by structural fs => fs

/-! ### Introduction lemmas for the conformance checker -/

theorem conformsReq_intro : (fs : Fields) → ∀ (ms : List (String × Value)),
    (∀ k sub, (k, sub) ∈ fs.toList →
      ∃ w, lookupKV ms k = some w ∧ conformsB sub w = true) →
    conformsReq fs ms = true
  | .nil => by intro ms _; rfl
  | .cons k sub rest => by
    intro ms H
    rcases H k sub (by simp [Fields.toList]) with ⟨w, hw, hc⟩
    simp only [conformsReq, hw, hc, Bool.true_and]
    exact conformsReq_intro rest ms
      (fun k' sub' h' => H k' sub'
        (by simp only [Fields.toList, List.mem_cons]; right; exact h'))
termination_by structural fs => fs

theorem conformsOpt_intro : (fs : Fields) → ∀ (ms : List (String × Value)),
    (∀ k sub w, (k, sub) ∈ fs.toList → lookupKV ms k = some w →
      conformsB sub w = true) →
    conformsOpt fs ms = true
  | .nil => by intro ms _; rfl
  | .cons k sub rest => by
    intro ms H
    have hrest := conformsOpt_intro rest ms
      (fun k' sub' w h' => H k' sub' w
        (by simp only [Fields.toList, List.mem_cons]; right; exact h'))
    rcases hl : lookupKV ms k with _ | w
    · simp [conformsOpt, hl, hrest]
    · have := H k sub w (by simp [Fields.toList]) hl
      simp [conformsOpt, hl, this, hrest]
termination_by structural fs => fs

theorem conformsProps_keys (req opt : Fields) (ms : List (String × Value))
    (h : conformsB (.properties req opt false) (.obj ms) = true) :
    ∀ k, k ∈ keysOf ms → k ∈ req.keys ++ opt.keys := by
  simp only [conformsB, Bool.and_eq_true, Bool.false_or] at h
  rcases h with ⟨_, hall⟩
  rw [List.all_eq_true] at hall
  intro k hk
  rcases List.mem_map.mp hk with ⟨p, hp, hpk⟩
  have := hall p hp
  rw [hpk] at this
  simpa [List.elem_iff] using this

theorem conformsDiscr_intro : (fs : Fields) →
    ∀ (sub : Schema) (tv tag : String) (ms : List (String × Value)),
    (tv, sub) ∈ fs.toList → keysNodup fs.keys = true →
    conformsB sub (.obj (eraseKey ms tag)) = true →
    conformsDiscr fs tv tag ms = true
  | .nil => by intro sub tv tag ms h _ _; simp [Fields.toList] at h
  | .cons k' s' rest => by
    intro sub tv tag ms hmem hnd hconf
    simp only [Fields.keys_cons, keysNodup, Bool.and_eq_true, Bool.not_eq_true'] at hnd
    rcases hnd with ⟨hk', hnd⟩
    simp only [Fields.toList, List.mem_cons, Prod.mk.injEq] at hmem
    by_cases hk : k' = tv
    · subst hk
      rcases hmem with ⟨h1, h2⟩ | hmem
      · subst h2
        simp [conformsDiscr, hconf]
      · exfalso
        have hmm : k' ∈ List.map Prod.fst rest.toList :=
          List.mem_map_of_mem Prod.fst hmem
        have hcc : (List.map Prod.fst rest.toList).contains k' = true := by
          simpa [List.elem_iff] using hmm
        rw [hcc] at hk'; exact Bool.noConfusion hk'
    · rcases hmem with ⟨h1, h2⟩ | hmem
      · exact absurd h1.symm hk
      · simp only [conformsDiscr, beq_iff_eq, hk, if_neg, not_false_iff]
        exact conformsDiscr_intro rest sub tv tag ms hmem hnd hconf
termination_by structural fs => fs

/-! ### What the generator's loops produce -/

theorem elems_rep_spec (F : Rng → Schema → Option (Gen Value)) (sub : Schema) :
    ∀ (count : Nat) (rng : Rng) (vs : List Value) (r' : Rng),
    elems_rep F sub count rng = some (.ok vs r') →
    ∀ v ∈ vs, ∃ r₁ r₂, F r₁ sub = some (.ok v r₂) := by
  intro count
  induction count with
  | zero =>
    intro rng vs r' h v hv
    simp only [elems_rep, Option.some.injEq] at h
    injection h with h1 h2
    subst h1; simp at hv
  | succ n ih =>
    intro rng vs r' h v hv
    rcases hF : F rng sub with _ | gr
    · simp [elems_rep, hF] at h
    · cases gr with
      | fatal => simp [elems_rep, hF] at h
      | ok w r₁ =>
        rcases hrec : elems_rep F sub n r₁ with _ | gr₂
        · simp [elems_rep, hF, hrec] at h
        · cases gr₂ with
          | fatal => simp [elems_rep, hF, hrec] at h
          | ok ws r₂ =>
            simp only [elems_rep, hF, hrec, Option.some.injEq] at h
            injection h with h1 h2
            subst h1
            rcases List.mem_cons.mp hv with rfl | hv
            · exact ⟨rng, r₁, hF⟩
            · exact ih r₁ ws r₂ hrec v hv

theorem values_rep_spec (F : Rng → Schema → Option (Gen Value)) (sub : Schema) :
    ∀ (count : Nat) (rng : Rng) (kvs : List (String × Value)) (r' : Rng),
    values_rep F sub count rng = some (.ok kvs r') →
    ∀ k v, (k, v) ∈ kvs → ∃ r₁ r₂, F r₁ sub = some (.ok v r₂) := by
  intro count
  induction count with
  | zero =>
    intro rng kvs r' h k v hv
    simp only [values_rep, Option.some.injEq] at h
    injection h with h1 h2
    subst h1; simp at hv
  | succ n ih =>
    intro rng kvs r' h k v hv
    rcases hks : fuzz_str rng with ⟨k₀, r₁⟩
    rcases hF : F r₁ sub with _ | gr
    · simp [values_rep, hks, hF] at h
    · cases gr with
      | fatal => simp [values_rep, hks, hF] at h
      | ok w r₂ =>
        rcases hrec : values_rep F sub n r₂ with _ | gr₂
        · simp [values_rep, hks, hF, hrec] at h
        · cases gr₂ with
          | fatal => simp [values_rep, hks, hF, hrec] at h
          | ok kvs₀ r₃ =>
            simp only [values_rep, hks, hF, hrec, Option.some.injEq] at h
            injection h with h1 h2
            subst h1
            rcases List.mem_cons.mp hv with heq | hv
            · rw [Prod.mk.injEq] at heq
              rw [← heq.2] at hF
              exact ⟨r₁, r₂, hF⟩
            · exact ih r₂ kvs₀ r₃ hrec k v hv

theorem props_req_spec (F : Rng → Schema → Option (Gen Value)) :
    (fs : Fields) → ∀ (rng : Rng) (pw : List (String × Value)) (r' : Rng),
    props_req F fs rng = some (.ok pw r') →
    pw.map Prod.fst = fs.keys ∧
      ∀ k w, (k, w) ∈ pw → ∃ sub, (k, sub) ∈ fs.toList ∧
        ∃ r₁ r₂, F r₁ sub = some (.ok w r₂)
  | .nil => by
    intro rng pw r' h
    simp only [props_req, Option.some.injEq] at h
    injection h with h1 h2
    subst h1
    exact ⟨rfl, by simp⟩
  | .cons k sub rest => by
    intro rng pw r' h
    rcases hF : F rng sub with _ | gr
    · simp [props_req, hF] at h
    · cases gr with
      | fatal => simp [props_req, hF] at h
      | ok v r₁ =>
        rcases hrec : props_req F rest r₁ with _ | gr₂
        · simp [props_req, hF, hrec] at h
        · cases gr₂ with
          | fatal => simp [props_req, hF, hrec] at h
          | ok kvs r₂ =>
            simp only [props_req, hF, hrec, Option.some.injEq] at h
            injection h with h1 h2
            subst h1
            rcases props_req_spec F rest r₁ kvs r₂ hrec with ⟨hkeys, hmem⟩
            constructor
            · simp [Fields.keys_cons, hkeys]
            · intro k' w hw
              rcases List.mem_cons.mp hw with heq | hw
              · rw [Prod.mk.injEq] at heq
                refine ⟨sub, ?_, rng, r₁, ?_⟩
                · simp [Fields.toList, heq.1]
                · rw [← heq.2] at hF; exact hF
              · rcases hmem k' w hw with ⟨sub', hsub', hout⟩
                exact ⟨sub', by
                  simp only [Fields.toList, List.mem_cons]; right; exact hsub', hout⟩
termination_by structural fs => fs

theorem props_opt_spec (F : Rng → Schema → Option (Gen Value)) :
    (fs : Fields) → ∀ (rng : Rng) (pw : List (String × Value)) (r' : Rng),
    props_opt F fs rng = some (.ok pw r') →
    List.Sublist (pw.map Prod.fst) fs.keys ∧
      ∀ k w, (k, w) ∈ pw → ∃ sub, (k, sub) ∈ fs.toList ∧
        ∃ r₁ r₂, F r₁ sub = some (.ok w r₂)
  | .nil => by
    intro rng pw r' h
    simp only [props_opt, Option.some.injEq] at h
    injection h with h1 h2
    subst h1
    exact ⟨by simp [Fields.keys_nil], by simp⟩
  | .cons k sub rest => by
    intro rng pw r' h
    rcases hfl : gen_bool rng with ⟨flip, r₀⟩
    cases flip with
    | false =>
      simp only [props_opt, hfl, Bool.false_eq_true, if_neg, not_false_iff] at h
      rcases props_opt_spec F rest r₀ pw r' h with ⟨hkeys, hmem⟩
      refine ⟨hkeys.cons k, ?_⟩
      intro k' w hw
      rcases hmem k' w hw with ⟨sub', hsub', hout⟩
      exact ⟨sub', by
        simp only [Fields.toList, List.mem_cons]; right; exact hsub', hout⟩
    | true =>
      rcases hF : F r₀ sub with _ | gr
      · simp [props_opt, hfl, hF] at h
      · cases gr with
        | fatal => simp [props_opt, hfl, hF] at h
        | ok v r₁ =>
          rcases hrec : props_opt F rest r₁ with _ | gr₂
          · simp [props_opt, hfl, hF, hrec] at h
          · cases gr₂ with
            | fatal => simp [props_opt, hfl, hF, hrec] at h
            | ok kvs r₂ =>
              simp only [props_opt, hfl, hF, hrec, if_pos, Option.some.injEq] at h
              injection h with h1 h2
              subst h1
              rcases props_opt_spec F rest r₁ kvs r₂ hrec with ⟨hkeys, hmem⟩
              constructor
              · simpa [Fields.keys_cons] using hkeys.cons₂ k
              · intro k' w hw
                rcases List.mem_cons.mp hw with heq | hw
                · rw [Prod.mk.injEq] at heq
                  refine ⟨sub, ?_, r₀, r₁, ?_⟩
                  · simp [Fields.toList, heq.1]
                  · rw [← heq.2] at hF; exact hF
                · rcases hmem k' w hw with ⟨sub', hsub', hout⟩
                  exact ⟨sub', by
                    simp only [Fields.toList, List.mem_cons]; right; exact hsub', hout⟩
termination_by structural fs => fs

/-! ### Ranges of the primitive draws -/

theorem gen_unsigned_bounds (w : Nat) (rng : Rng) (n : Nat) (r' : Rng)
    (h : gen_unsigned w rng = (n, r')) : n < 2 ^ w := by
  rcases hn : rngNext rng with ⟨m, r⟩
  simp only [gen_unsigned, hn] at h
  injection h with h1 h2
  subst h1
  exact Nat.mod_lt _ (Nat.pos_pow_of_pos w (by omega))

theorem gen_signed_bounds (w : Nat) (hw : 1 ≤ w) (rng : Rng) (i : Int) (r' : Rng)
    (h : gen_signed w rng = (i, r')) :
    -(2 ^ (w - 1) : Int) ≤ i ∧ i ≤ 2 ^ (w - 1) - 1 := by
  rcases hn : rngNext rng with ⟨m, r⟩
  simp only [gen_signed, hn] at h
  injection h with h1 h2
  subst h1
  have hpow : (2 : Nat) ^ w = 2 * 2 ^ (w - 1) := by
    conv_lhs => rw [← Nat.sub_add_cancel hw]
    rw [pow_succ]
    omega
  have hb : m % 2 ^ w < 2 ^ w := Nat.mod_lt _ (Nat.pos_pow_of_pos w (by omega))
  by_cases hc : m % 2 ^ w < 2 ^ (w - 1)
  · rw [if_pos hc]
    constructor
    · have : (0 : Int) ≤ (m % 2 ^ w : Nat) := Int.ofNat_nonneg _
      have : (0 : Int) ≤ 2 ^ (w - 1) := by positivity
      omega
    · have : ((m % 2 ^ w : Nat) : Int) < ((2 : Nat) ^ (w - 1) : Int) := by
        exact_mod_cast hc
      have hcast : ((2 : Nat) ^ (w - 1) : Int) = (2 : Int) ^ (w - 1) := by push_cast; ring
      omega
  · rw [if_neg hc]
    have h1 : ((m % 2 ^ w : Nat) : Int) < ((2 : Nat) ^ w : Int) := by exact_mod_cast hb
    have h2 : ((2 : Nat) ^ (w - 1) : Int) ≤ ((m % 2 ^ w : Nat) : Int) := by
      exact_mod_cast Nat.le_of_not_lt hc
    have h3 : ((2 : Nat) ^ w : Int) = 2 * ((2 : Nat) ^ (w - 1) : Int) := by
      exact_mod_cast hpow
    have hcast : ((2 : Nat) ^ (w - 1) : Int) = (2 : Int) ^ (w - 1) := by push_cast; ring
    have hcast2 : ((2 : Nat) ^ w : Int) = (2 : Int) ^ w := by push_cast; ring
    constructor
    · omega
    · omega

theorem gen_unsigned_attain (w : Nat) (m : Nat) (hm : m < 2 ^ w) :
    gen_unsigned w [m] = (m, []) := by
  simp [gen_unsigned, rngNext, Nat.mod_eq_of_lt hm]

theorem gen_signed_attain (w : Nat) (hw : 1 ≤ w) (i : Int)
    (hlo : -(2 ^ (w - 1) : Int) ≤ i) (hhi : i ≤ 2 ^ (w - 1) - 1) :
    ∃ m : Nat, gen_signed w [m] = (i, []) := by
  have hpow : (2 : Nat) ^ w = 2 * 2 ^ (w - 1) := by
    conv_lhs => rw [← Nat.sub_add_cancel hw]
    rw [pow_succ]
    omega
  have hcast : ((2 : Nat) ^ (w - 1) : Int) = (2 : Int) ^ (w - 1) := by push_cast; ring
  have hcast2 : ((2 : Nat) ^ w : Int) = (2 : Int) ^ w := by push_cast; ring
  have hpz : (0 : Int) < 2 ^ (w - 1) := by positivity
  by_cases hpos : 0 ≤ i
  · refine ⟨i.toNat, ?_⟩
    have hlt : i.toNat < 2 ^ (w - 1) := by omega
    have hlt2 : i.toNat < 2 ^ w := by omega
    simp only [gen_signed, rngNext]
    rw [Nat.mod_eq_of_lt hlt2, if_pos hlt]
    have : ((i.toNat : Nat) : Int) = i := Int.toNat_of_nonneg hpos
    rw [this]
  · refine ⟨(i + 2 ^ w).toNat, ?_⟩
    push_neg at hpos
    have hge : (0 : Int) ≤ i + 2 ^ w := by
      have : ((2 : Nat) ^ w : Int) = 2 * ((2 : Nat) ^ (w - 1) : Int) := by
        exact_mod_cast hpow
      omega
    have hlt2 : (i + 2 ^ w).toNat < 2 ^ w := by omega
    have hnotlt : ¬ ((i + 2 ^ w).toNat < 2 ^ (w - 1)) := by omega
    simp only [gen_signed, rngNext]
    rw [Nat.mod_eq_of_lt hlt2, if_neg hnotlt]
    have : (((i + 2 ^ w).toNat : Nat) : Int) = i + 2 ^ w := Int.toNat_of_nonneg hge
    rw [this]
    have hfin : i + (2 : Int) ^ w - (2 : Int) ^ w = i := by ring
    rw [hfin]

/-! ### Every generated value conforms (for additional-free schemas) -/

/-- Core conformance induction: for a well-formed schema in which no
Properties node allows additional members, every value the generator
returns conforms to the schema. -/
theorem fuzz_conforms_aux : ∀ (fuel : Nat) (s : Schema) (rng : Rng) (v : Value) (r' : Rng),
    s.size ≤ fuel → s.wfNoAdd = true → fuzzF fuel rng s = some (.ok v r') →
    conformsB s v = true := by
  intro fuel
  induction fuel with
  | zero => intro s rng v r' h _ _; have := Schema.size_pos s; omega
  | succ fuel ih =>
    intro s rng v r' hsz hwf hfz
    cases s with
    | empty => rfl
    | unknown => simp [Schema.wfNoAdd] at hwf
    | type t =>
      cases t with
      | boolean =>
        rcases hg : gen_bool rng with ⟨b, r₀⟩
        simp only [fuzzF, fuzz_bool, hg] at hfz
        injection hfz with h1
        injection h1 with hv hr
        subst hv; rfl
      | int8 =>
        rcases hg : gen_signed 8 rng with ⟨i, r₀⟩
        simp only [fuzzF, fuzz_i8, hg] at hfz
        injection hfz with h1
        injection h1 with hv hr
        subst hv
        have hb := gen_signed_bounds 8 (by omega) rng i r₀ hg
        simp only [conformsB, isIntIn, Bool.and_eq_true, decide_eq_true_eq]
        norm_num at hb ⊢
        omega
      | uint8 =>
        rcases hg : gen_unsigned 8 rng with ⟨n, r₀⟩
        simp only [fuzzF, fuzz_u8, hg] at hfz
        injection hfz with h1
        injection h1 with hv hr
        subst hv
        have hb := gen_unsigned_bounds 8 rng n r₀ hg
        simp only [conformsB, isIntIn, Bool.and_eq_true, decide_eq_true_eq]
        norm_num at hb ⊢
        omega
      | int16 =>
        rcases hg : gen_signed 16 rng with ⟨i, r₀⟩
        simp only [fuzzF, fuzz_i16, hg] at hfz
        injection hfz with h1
        injection h1 with hv hr
        subst hv
        have hb := gen_signed_bounds 16 (by omega) rng i r₀ hg
        simp only [conformsB, isIntIn, Bool.and_eq_true, decide_eq_true_eq]
        norm_num at hb ⊢
        omega
      | uint16 =>
        rcases hg : gen_unsigned 16 rng with ⟨n, r₀⟩
        simp only [fuzzF, fuzz_u16, hg] at hfz
        injection hfz with h1
        injection h1 with hv hr
        subst hv
        have hb := gen_unsigned_bounds 16 rng n r₀ hg
        simp only [conformsB, isIntIn, Bool.and_eq_true, decide_eq_true_eq]
        norm_num at hb ⊢
        omega
      | int32 =>
        rcases hg : gen_signed 32 rng with ⟨i, r₀⟩
        simp only [fuzzF, fuzz_i32, hg] at hfz
        injection hfz with h1
        injection h1 with hv hr
        subst hv
        have hb := gen_signed_bounds 32 (by omega) rng i r₀ hg
        simp only [conformsB, isIntIn, Bool.and_eq_true, decide_eq_true_eq]
        norm_num at hb ⊢
        omega
      | uint32 =>
        rcases hg : gen_unsigned 32 rng with ⟨n, r₀⟩
        simp only [fuzzF, fuzz_u32, hg] at hfz
        injection hfz with h1
        injection h1 with hv hr
        subst hv
        have hb := gen_unsigned_bounds 32 rng n r₀ hg
        simp only [conformsB, isIntIn, Bool.and_eq_true, decide_eq_true_eq]
        norm_num at hb ⊢
        omega
      | float32 =>
        rcases hg : rngNext rng with ⟨n, r₀⟩
        simp only [fuzzF, fuzz_f32, gen_f32, valueOfF64, hg] at hfz
        injection hfz with h1
        injection h1 with hv hr
        subst hv; rfl
      | float64 =>
        rcases hg : rngNext rng with ⟨n, r₀⟩
        simp only [fuzzF, fuzz_f64, gen_f64, valueOfF64, hg] at hfz
        injection hfz with h1
        injection h1 with hv hr
        subst hv; rfl
      | string =>
        rcases hg : fuzz_str rng with ⟨s, r₀⟩
        simp only [fuzzF, fuzz_string, hg] at hfz
        injection hfz with h1
        injection h1 with hv hr
        subst hv; rfl
      | timestamp =>
        rcases hg : gen_signed 32 rng with ⟨i, r₀⟩
        simp only [fuzzF, fuzz_timestamp, hg] at hfz
        injection hfz with h1
        injection h1 with hv hr
        subst hv; rfl
    | enum vals =>
      simp only [fuzzF] at hfz
      injection hfz with h1
      rcases hch : chooseList vals rng with _ | ⟨s, r₀⟩
      · rw [fuzz_enum, hch] at h1; exact Gen.noConfusion h1
      · rw [fuzz_enum, hch] at h1
        injection h1 with hv hr
        subst hv
        have := chooseList_mem _ _ _ _ hch
        simp only [conformsB]
        simpa [List.elem_iff] using this
    | elements sub =>
      have hsz' : 1 + sub.size ≤ fuel + 1 := by simpa [Schema.size] using hsz
      simp only [Schema.wfNoAdd] at hwf
      rcases hg : gen_range 0 8 rng with ⟨n, r₁⟩
      simp only [fuzzF, hg] at hfz
      rcases hrep : elems_rep (fuzzF fuel) sub n r₁ with _ | gr
      · rw [hrep] at hfz; simp at hfz
      · cases gr with
        | fatal => rw [hrep] at hfz; simp at hfz
        | ok vs r₂ =>
          rw [hrep] at hfz
          simp only [Option.some.injEq] at hfz
          injection hfz with hv hr
          subst hv
          simp only [conformsB, List.all_eq_true]
          intro w hw
          rcases elems_rep_spec (fuzzF fuel) sub n r₁ vs r₂ hrep w hw with ⟨r₁', r₂', hout⟩
          exact ih sub r₁' w r₂' (by omega) hwf hout
    | values sub =>
      have hsz' : 1 + sub.size ≤ fuel + 1 := by simpa [Schema.size] using hsz
      simp only [Schema.wfNoAdd] at hwf
      rcases hg : gen_range 0 8 rng with ⟨n, r₁⟩
      simp only [fuzzF, hg] at hfz
      rcases hrep : values_rep (fuzzF fuel) sub n r₁ with _ | gr
      · rw [hrep] at hfz; simp at hfz
      · cases gr with
        | fatal => rw [hrep] at hfz; simp at hfz
        | ok kvs r₂ =>
          rw [hrep] at hfz
          simp only [Option.some.injEq] at hfz
          injection hfz with hv hr
          subst hv
          simp only [conformsB, List.all_eq_true]
          intro p hp
          have hp' := mem_buildObj kvs p hp
          rcases values_rep_spec (fuzzF fuel) sub n r₁ kvs r₂ hrep p.1 p.2
            (by rcases p with ⟨a, b⟩; exact hp') with ⟨r₁', r₂', hout⟩
          exact ih sub r₁' p.2 r₂' (by omega) hwf hout
    | properties req opt addl =>
      simp only [Schema.wfNoAdd, Bool.and_eq_true, Bool.not_eq_true'] at hwf
      rcases hwf with ⟨⟨⟨haddl, hnodup⟩, hwfreq⟩, hwfopt⟩
      subst haddl
      have hsz' : 1 + req.sizeF + opt.sizeF ≤ fuel + 1 := by simpa [Schema.size] using hsz
      simp only [fuzzF] at hfz
      rcases hreq : props_req (fuzzF fuel) req rng with _ | gr
      · rw [hreq] at hfz; simp at hfz
      · cases gr with
        | fatal => rw [hreq] at hfz; simp at hfz
        | ok rvals r₁ =>
          simp only [hreq] at hfz
          rcases hopt : props_opt (fuzzF fuel) opt r₁ with _ | gr₂
          · simp [hopt] at hfz
          · cases gr₂ with
            | fatal => simp [hopt] at hfz
            | ok ovals r₂ =>
              simp only [hopt] at hfz
              rw [if_neg (by simp)] at hfz
              simp only [Option.some.injEq] at hfz
              injection hfz with hv hr
              subst hv
              rcases props_req_spec (fuzzF fuel) req rng rvals r₁ hreq with ⟨hkeysR, hmemR⟩
              rcases props_opt_spec (fuzzF fuel) opt r₁ ovals r₂ hopt with ⟨hkeysO, hmemO⟩
              rcases keysNodup_append req.keys opt.keys hnodup with ⟨hndR, hndO, hdisj⟩
              have hkeysapp : keysOf (rvals ++ ovals) =
                  List.map Prod.fst rvals ++ List.map Prod.fst ovals := by
                simp [keysOf]
              have hndO' : keysNodup (List.map Prod.fst ovals) = true := by
                rw [keysNodup_iff_nodup]
                exact hkeysO.nodup ((keysNodup_iff_nodup _).mp hndO)
              have hdisj' : ∀ k ∈ List.map Prod.fst rvals, k ∉ List.map Prod.fst ovals := by
                intro k hk hk'
                rw [hkeysR] at hk
                exact hdisj k hk (hkeysO.subset hk')
              have hmsnd : keysNodup (keysOf (rvals ++ ovals)) = true := by
                rw [hkeysapp]
                exact keysNodup_append_intro _ _ (by rw [hkeysR]; exact hndR) hndO' hdisj'
              have hlook : ∀ k, lookupKV (buildObj (rvals ++ ovals)) k =
                  (lookupKV rvals k).or (lookupKV ovals k) := by
                intro k
                rw [lookupKV_buildObj, lookupKV_reverse_nodup _ _ hmsnd, lookupKV_append]
              have hszreq : req.sizeF ≤ fuel := by
                have := Fields.sizeF_pos opt; omega
              have hszopt : opt.sizeF ≤ fuel := by
                have := Fields.sizeF_pos req; omega
              simp only [conformsB, Bool.and_eq_true, Bool.false_or]
              refine ⟨⟨?_, ?_⟩, ?_⟩
              · -- required keys present and conforming
                apply conformsReq_intro
                intro k sub hmem
                have hkin : k ∈ List.map Prod.fst rvals := by
                  rw [hkeysR]
                  exact List.mem_map_of_mem Prod.fst hmem
                rcases lookupKV_isSome_of_mem rvals k hkin with ⟨w, hw⟩
                refine ⟨w, ?_, ?_⟩
                · rw [hlook, hw]; rfl
                · rcases hmemR k w (lookupKV_mem _ _ _ hw) with ⟨sub', hsub', r₁', r₂', hout⟩
                  have hsubeq : sub' = sub :=
                    assoc_unique req.toList k sub' sub hndR hsub' hmem
                  subst hsubeq
                  have hlt := Fields.mem_size req k sub' hmem
                  exact ih sub' r₁' w r₂' (by omega)
                    (Fields.wfAllNoAdd_mem req k sub' hwfreq hmem) hout
              · -- optional keys conform when present
                apply conformsOpt_intro
                intro k sub w hmem hlk
                rw [hlook] at hlk
                have hknotR : k ∉ List.map Prod.fst rvals := by
                  intro hk
                  rw [hkeysR] at hk
                  exact hdisj k hk (List.mem_map_of_mem Prod.fst hmem)
                have hnone : lookupKV rvals k = none :=
                  (lookupKV_eq_none_iff rvals k).mpr (by simpa [keysOf] using hknotR)
                rw [hnone] at hlk
                have hlk' : lookupKV ovals k = some w := by simpa [Option.or] using hlk
                rcases hmemO k w (lookupKV_mem _ _ _ hlk') with ⟨sub', hsub', r₁', r₂', hout⟩
                have hsubeq : sub' = sub :=
                  assoc_unique opt.toList k sub' sub hndO hsub' hmem
                subst hsubeq
                have hlt := Fields.mem_size opt k sub' hmem
                exact ih sub' r₁' w r₂' (by omega)
                  (Fields.wfAllNoAdd_mem opt k sub' hwfopt hmem) hout
              · -- no keys outside required ∪ optional
                rw [List.all_eq_true]
                intro p hp
                have hp' := mem_buildObj _ p hp
                have hkp : p.1 ∈ List.map Prod.fst rvals ++ List.map Prod.fst ovals := by
                  rcases List.mem_append.mp hp' with h | h
                  · exact List.mem_append_left _ (List.mem_map_of_mem Prod.fst h)
                  · exact List.mem_append_right _ (List.mem_map_of_mem Prod.fst h)
                have : p.1 ∈ req.keys ++ opt.keys := by
                  rcases List.mem_append.mp hkp with h | h
                  · rw [hkeysR] at h
                    exact List.mem_append_left _ h
                  · exact List.mem_append_right _ (hkeysO.subset h)
                simpa [List.elem_iff] using this
    | discriminator tag mapping =>
      simp only [Schema.wfNoAdd, Bool.and_eq_true] at hwf
      rcases hwf with ⟨hnd, hmap⟩
      have hsz' : 1 + mapping.sizeF ≤ fuel + 1 := by simpa [Schema.size] using hsz
      rcases hch : chooseList mapping.toList rng with _ | ⟨⟨tv, sub⟩, r₁⟩
      · simp [fuzzF, hch] at hfz
      · simp only [fuzzF, hch] at hfz
        rcases hsub : fuzzF fuel r₁ sub with _ | gr
        · rw [hsub] at hfz; simp at hfz
        · cases gr with
          | fatal => rw [hsub] at hfz; simp at hfz
          | ok v₀ r₂ =>
            rw [hsub] at hfz
            cases v₀ with
            | null => simp at hfz
            | bool b => simp at hfz
            | int n => simp at hfz
            | float m e => simp at hfz
            | str s => simp at hfz
            | arr vs => simp at hfz
            | obj ms₀ =>
              simp only [Option.some.injEq] at hfz
              injection hfz with hv hr
              subst hv
              have hmem := chooseList_mem _ _ _ _ hch
              have hlt := Fields.mem_size mapping tv sub hmem
              rcases Fields.wfMapNoAdd_mem mapping tag tv sub hmap hmem with
                ⟨⟨rf, of, hform, hnotag⟩, hwfsub⟩
              have hconf₀ : conformsB sub (.obj ms₀) = true :=
                ih sub r₁ (.obj ms₀) r₂ (by omega) hwfsub hsub
              have htagnot : tag ∉ keysOf ms₀ := by
                intro hc
                subst hform
                have := conformsProps_keys rf of ms₀ hconf₀ tag hc
                have : ((rf.keys ++ of.keys).contains tag) = true := by
                  simpa [List.elem_iff] using this
                rw [this] at hnotag; exact Bool.noConfusion hnotag
              have hlt2 : lookupKV (insertKV ms₀ tag (.str tv)) tag = some (.str tv) := by
                rw [lookupKV_insertKV]; simp
              simp only [conformsB, hlt2]
              apply conformsDiscr_intro mapping sub tv tag _ hmem hnd
              rw [eraseKey_insertKV, eraseKey_eq_self ms₀ tag htagnot]
              exact hconf₀

/-- Conformance at the level of `fuzz`: for a well-formed, additional-free
schema, every generated value conforms. -/
theorem fuzz_conforms (s : Schema) (rng : Rng) (v : Value) (r' : Rng)
    (hwf : s.wfNoAdd = true) (h : fuzz rng s = .ok v r') :
    conformsB s v = true := by
  apply fuzz_conforms_aux s.size s rng v r' (Nat.le_refl _) hwf
  rw [fuzz_eq_fuzzF, h]

/-! ### The generator never panics on panic-free well-formed schemas -/

theorem props_req_total (F : Rng → Schema → Option (Gen Value)) :
    (fs : Fields) →
    (H : ∀ rng k sub, (k, sub) ∈ fs.toList → ∃ v r', F rng sub = some (.ok v r')) →
    ∀ (rng : Rng), ∃ pw r', props_req F fs rng = some (.ok pw r')
  | .nil => fun _ rng => ⟨[], rng, rfl⟩
  | .cons k sub rest => by
    intro H rng
    rcases H rng k sub (by simp [Fields.toList]) with ⟨v, r₁, hF⟩
    rcases props_req_total F rest
      (fun rng' k' sub' h' => H rng' k' sub'
        (by simp only [Fields.toList, List.mem_cons]; right; exact h')) r₁ with
      ⟨kvs, r₂, hrec⟩
    exact ⟨(k, v) :: kvs, r₂, by simp [props_req, hF, hrec]⟩
termination_by structural fs => fs

theorem props_opt_total (F : Rng → Schema → Option (Gen Value)) :
    (fs : Fields) →
    (H : ∀ rng k sub, (k, sub) ∈ fs.toList → ∃ v r', F rng sub = some (.ok v r')) →
    ∀ (rng : Rng), ∃ pw r', props_opt F fs rng = some (.ok pw r')
  | .nil => fun _ rng => ⟨[], rng, rfl⟩
  | .cons k sub rest => by
    intro H rng
    have Hrest : ∀ rng' k' sub', (k', sub') ∈ rest.toList →
        ∃ v r', F rng' sub' = some (.ok v r') :=
      fun rng' k' sub' h' => H rng' k' sub'
        (by simp only [Fields.toList, List.mem_cons]; right; exact h')
    rcases hfl : gen_bool rng with ⟨flip, r₀⟩
    cases flip with
    | false =>
      rcases props_opt_total F rest Hrest r₀ with ⟨kvs, r₂, hrec⟩
      exact ⟨kvs, r₂, by simp [props_opt, hfl, hrec]⟩
    | true =>
      rcases H r₀ k sub (by simp [Fields.toList]) with ⟨v, r₁, hF⟩
      rcases props_opt_total F rest Hrest r₁ with ⟨kvs, r₂, hrec⟩
      exact ⟨(k, v) :: kvs, r₂, by simp [props_opt, hfl, hF, hrec]⟩
termination_by structural fs => fs

theorem elems_rep_total (F : Rng → Schema → Option (Gen Value)) (sub : Schema)
    (H : ∀ rng, ∃ v r', F rng sub = some (.ok v r')) :
    ∀ (count : Nat) (rng : Rng), ∃ vs r', elems_rep F sub count rng = some (.ok vs r') := by
  intro count
  induction count with
  | zero => intro rng; exact ⟨[], rng, rfl⟩
  | succ n ih =>
    intro rng
    rcases H rng with ⟨v, r₁, hF⟩
    rcases ih r₁ with ⟨vs, r₂, hrec⟩
    exact ⟨v :: vs, r₂, by simp [elems_rep, hF, hrec]⟩

theorem values_rep_total (F : Rng → Schema → Option (Gen Value)) (sub : Schema)
    (H : ∀ rng, ∃ v r', F rng sub = some (.ok v r')) :
    ∀ (count : Nat) (rng : Rng), ∃ kvs r', values_rep F sub count rng = some (.ok kvs r') := by
  intro count
  induction count with
  | zero => intro rng; exact ⟨[], rng, rfl⟩
  | succ n ih =>
    intro rng
    rcases hks : fuzz_str rng with ⟨k, r₁⟩
    rcases H r₁ with ⟨v, r₂, hF⟩
    rcases ih r₂ with ⟨kvs, r₃, hrec⟩
    exact ⟨(k, v) :: kvs, r₃, by simp [values_rep, hks, hF, hrec]⟩

/-- A Properties-form schema always generates a JSON object. -/
theorem fuzzF_props_obj (fuel : Nat) (rng : Rng) (req opt : Fields)
    (allowAdditional : Bool) (v : Value) (r' : Rng)
    (h : fuzzF fuel rng (.properties req opt allowAdditional) = some (.ok v r')) :
    ∃ ms, v = .obj ms := by
  cases fuel with
  | zero => simp [fuzzF] at h
  | succ fuel =>
    simp only [fuzzF] at h
    rcases hreq : props_req (fuzzF fuel) req rng with _ | gr
    · simp [hreq] at h
    · cases gr with
      | fatal => simp [hreq] at h
      | ok rvals r₁ =>
        simp only [hreq] at h
        rcases hopt : props_opt (fuzzF fuel) opt r₁ with _ | gr₂
        · simp [hopt] at h
        · cases gr₂ with
          | fatal => simp [hopt] at h
          | ok ovals r₂ =>
            simp only [hopt] at h
            cases allowAdditional with
            | false =>
              rw [if_neg (by simp)] at h
              simp only [Option.some.injEq] at h
              injection h with hv hr
              exact ⟨_, hv.symm⟩
            | true =>
              rw [if_pos rfl] at h
              rcases hg : gen_range 0 8 r₂ with ⟨n, r₃⟩
              rcases ha : fuzz_additional n r₃ with ⟨avals, r₄⟩
              rw [hg] at h
              simp only [ha, Option.some.injEq] at h
              injection h with hv hr
              exact ⟨_, hv.symm⟩

/-- Core totality induction: for a schema satisfying the §3 invariants
(non-empty enums, non-empty discriminator mappings whose entries are
Properties forms), the generator never panics. -/
theorem fuzz_total_aux : ∀ (fuel : Nat) (s : Schema) (rng : Rng),
    s.size ≤ fuel → s.wfTotal = true →
    ∃ v r', fuzzF fuel rng s = some (.ok v r') := by
  intro fuel
  induction fuel with
  | zero => intro s rng h _; have := Schema.size_pos s; omega
  | succ fuel ih =>
    intro s rng hsz hwf
    cases s with
    | empty =>
      rcases ha : fuzz_any rng with ⟨v, r⟩
      exact ⟨v, r, by simp [fuzzF, ha]⟩
    | unknown => simp [Schema.wfTotal] at hwf
    | type t =>
      cases t with
      | boolean =>
        rcases hg : fuzz_bool rng with ⟨v, r⟩
        exact ⟨v, r, by simp [fuzzF, hg]⟩
      | int8 =>
        rcases hg : fuzz_i8 rng with ⟨v, r⟩
        exact ⟨v, r, by simp [fuzzF, hg]⟩
      | uint8 =>
        rcases hg : fuzz_u8 rng with ⟨v, r⟩
        exact ⟨v, r, by simp [fuzzF, hg]⟩
      | int16 =>
        rcases hg : fuzz_i16 rng with ⟨v, r⟩
        exact ⟨v, r, by simp [fuzzF, hg]⟩
      | uint16 =>
        rcases hg : fuzz_u16 rng with ⟨v, r⟩
        exact ⟨v, r, by simp [fuzzF, hg]⟩
      | int32 =>
        rcases hg : fuzz_i32 rng with ⟨v, r⟩
        exact ⟨v, r, by simp [fuzzF, hg]⟩
      | uint32 =>
        rcases hg : fuzz_u32 rng with ⟨v, r⟩
        exact ⟨v, r, by simp [fuzzF, hg]⟩
      | float32 =>
        rcases hg : fuzz_f32 rng with ⟨v, r⟩
        exact ⟨v, r, by simp [fuzzF, hg]⟩
      | float64 =>
        rcases hg : fuzz_f64 rng with ⟨v, r⟩
        exact ⟨v, r, by simp [fuzzF, hg]⟩
      | string =>
        rcases hg : fuzz_string rng with ⟨v, r⟩
        exact ⟨v, r, by simp [fuzzF, hg]⟩
      | timestamp =>
        rcases hg : fuzz_timestamp rng with ⟨v, r⟩
        exact ⟨v, r, by simp [fuzzF, hg]⟩
    | enum vals =>
      cases vals with
      | nil => simp [Schema.wfTotal] at hwf
      | cons y ys =>
        rcases hn : rngNext rng with ⟨n, r⟩
        exact ⟨.str ((y :: ys).getD (n % (ys.length + 1)) y), r,
          by simp [fuzzF, fuzz_enum, chooseList, hn]⟩
    | elements sub =>
      have hsz' : 1 + sub.size ≤ fuel + 1 := by simpa [Schema.size] using hsz
      simp only [Schema.wfTotal] at hwf
      rcases hg : gen_range 0 8 rng with ⟨n, r₁⟩
      rcases elems_rep_total (fuzzF fuel) sub
        (fun rng' => ih sub rng' (by omega) hwf) n r₁ with ⟨vs, r₂, hrep⟩
      exact ⟨.arr vs, r₂, by simp [fuzzF, hg, hrep]⟩
    | values sub =>
      have hsz' : 1 + sub.size ≤ fuel + 1 := by simpa [Schema.size] using hsz
      simp only [Schema.wfTotal] at hwf
      rcases hg : gen_range 0 8 rng with ⟨n, r₁⟩
      rcases values_rep_total (fuzzF fuel) sub
        (fun rng' => ih sub rng' (by omega) hwf) n r₁ with ⟨kvs, r₂, hrep⟩
      exact ⟨.obj (buildObj kvs), r₂, by simp [fuzzF, hg, hrep]⟩
    | properties req opt addl =>
      have hsz' : 1 + req.sizeF + opt.sizeF ≤ fuel + 1 := by simpa [Schema.size] using hsz
      simp only [Schema.wfTotal, Bool.and_eq_true] at hwf
      rcases hwf with ⟨hwfreq, hwfopt⟩
      have Hreq : ∀ rng' k' sub', (k', sub') ∈ req.toList →
          ∃ v r', fuzzF fuel rng' sub' = some (.ok v r') := by
        intro rng' k' sub' hm
        have := Fields.mem_size req k' sub' hm
        exact ih sub' rng' (by omega) (Fields.wfAllTotal_mem req k' sub' hwfreq hm)
      have Hopt : ∀ rng' k' sub', (k', sub') ∈ opt.toList →
          ∃ v r', fuzzF fuel rng' sub' = some (.ok v r') := by
        intro rng' k' sub' hm
        have := Fields.mem_size opt k' sub' hm
        exact ih sub' rng' (by omega) (Fields.wfAllTotal_mem opt k' sub' hwfopt hm)
      rcases props_req_total (fuzzF fuel) req Hreq rng with ⟨rvals, r₁, hreq⟩
      rcases props_opt_total (fuzzF fuel) opt Hopt r₁ with ⟨ovals, r₂, hopt⟩
      cases addl with
      | false =>
        exact ⟨.obj (buildObj (rvals ++ ovals)), r₂, by simp [fuzzF, hreq, hopt]⟩
      | true =>
        rcases hg : gen_range 0 8 r₂ with ⟨n, r₃⟩
        rcases ha : fuzz_additional n r₃ with ⟨avals, r₄⟩
        exact ⟨.obj (buildObj (rvals ++ ovals ++ avals)), r₄,
          by simp [fuzzF, hreq, hopt, hg, ha]⟩
    | discriminator tag mapping =>
      have hsz' : 1 + mapping.sizeF ≤ fuel + 1 := by simpa [Schema.size] using hsz
      simp only [Schema.wfTotal, Bool.and_eq_true] at hwf
      rcases hwf with ⟨hne, hmapwf⟩
      cases mapping with
      | nil => simp at hne
      | cons k₀ s₀ rest =>
        rcases hch : chooseList (Fields.cons k₀ s₀ rest).toList rng with _ | ⟨⟨tv, sub⟩, r₁⟩
        · exfalso
          rcases hn : rngNext rng with ⟨n, r⟩
          simp [Fields.toList, chooseList, hn] at hch
        · have hmem := chooseList_mem _ _ _ _ hch
          have hlt := Fields.mem_size _ tv sub hmem
          rcases Fields.wfMapTotal_mem _ tv sub hmapwf hmem with ⟨hform, hwfe⟩
          rcases ih sub r₁ (by omega) hwfe with ⟨v₀, r₂, hsub⟩
          rcases sub with _ | _ | _ | _ | ⟨rf, of, ad⟩ | _ | _ | _ <;>
            try simp [isPropsForm] at hform
          rcases fuzzF_props_obj fuel r₁ rf of ad v₀ r₂ hsub with ⟨ms₀, hms₀⟩
          subst hms₀
          exact ⟨.obj (insertKV ms₀ tag (.str tv)), r₂, by simp [fuzzF, hch, hsub]⟩

/-- `fuzz`-level totality. -/
theorem fuzz_total (s : Schema) (rng : Rng) (hwf : s.wfTotal = true) :
    ∃ v r', fuzz rng s = .ok v r' := by
  rcases fuzz_total_aux s.size s rng (Nat.le_refl _) hwf with ⟨v, r', h⟩
  refine ⟨v, r', ?_⟩
  have h2 := fuzz_eq_fuzzF s rng
  rw [h] at h2
  injection h2 with h2
  exact h2.symm

/-! ### The driver loop -/

theorem driverRun_length : ∀ (n : Nat) (rng : Rng) (s : Schema)
    (out : List Value) (r' : Rng),
    driverRun n rng s = some (out, r') → out.length = n := by
  intro n
  induction n with
  | zero =>
    intro rng s out r' h
    simp only [driverRun, Option.some.injEq] at h
    injection h with h1 h2
    subst h1; rfl
  | succ n ih =>
    intro rng s out r' h
    rcases hf : fuzz rng s with ⟨v, r₁⟩ | _
    · rcases hrec : driverRun n r₁ s with _ | ⟨vs, r₂⟩
      · simp [driverRun, hf, hrec] at h
      · simp only [driverRun, hf, hrec, Option.some.injEq] at h
        injection h with h1 h2
        subst h1
        have := ih r₁ s vs r₂ hrec
        simp [this]
    · simp [driverRun, hf] at h

/-! ### The shape of generated strings -/

theorem char_ofNat_toNat (k : Nat) (h : k < 55296) : (Char.ofNat k).toNat = k := by
  simp only [Char.ofNat]
  rw [dif_pos (by left; exact h)]
  rfl

theorem strChars_spec : ∀ (count : Nat) (rng : Rng),
    (strChars count rng).1.length = count ∧
    ∀ c ∈ (strChars count rng).1, 32 ≤ c.toNat ∧ c.toNat ≤ 126 := by
  intro count
  induction count with
  | zero =>
    intro rng
    exact ⟨rfl, by simp [strChars]⟩
  | succ n ih =>
    intro rng
    rcases hn : rngNext rng with ⟨m, r₁⟩
    have hg : gen_range 32 127 rng = (32 + m % 95, r₁) := by simp [gen_range, hn]
    rcases hsc : strChars n r₁ with ⟨cs, r₂⟩
    have ihl := (ih r₁).1
    have ihr := (ih r₁).2
    rw [hsc] at ihl ihr
    have hmlt : m % 95 < 95 := Nat.mod_lt _ (by omega)
    have htn : (Char.ofNat (32 + m % 95)).toNat = 32 + m % 95 :=
      char_ofNat_toNat _ (by omega)
    constructor
    · simp [strChars, hg, hsc, ihl]
    · intro c hc
      simp only [strChars, hg, hsc, List.mem_cons] at hc
      rcases hc with rfl | hc
      · rw [htn]; omega
      · exact ihr c hc

theorem fuzz_str_spec (rng : Rng) :
    (fuzz_str rng).1.length ≤ 7 ∧
    ∀ c ∈ (fuzz_str rng).1.data, 32 ≤ c.toNat ∧ c.toNat ≤ 126 := by
  rcases hn : rngNext rng with ⟨m, r₁⟩
  have hg : gen_range 0 8 rng = (m % 8, r₁) := by simp [gen_range, hn]
  rcases hsc : strChars (m % 8) r₁ with ⟨cs, r₂⟩
  have hspec := strChars_spec (m % 8) r₁
  rw [hsc] at hspec
  have hlt : m % 8 < 8 := Nat.mod_lt _ (by omega)
  constructor
  · have : (fuzz_str rng).1 = String.mk cs := by simp [fuzz_str, hg, hsc]
    rw [this]
    simp only [String.length]
    have h1 : cs.length = m % 8 := by simpa using hspec.1
    omega
  · intro c hc
    have : (fuzz_str rng).1 = String.mk cs := by simp [fuzz_str, hg, hsc]
    rw [this] at hc
    exact hspec.2 c hc

/-- A Discriminator-form schema, when generation succeeds, yields a JSON
object. -/
theorem fuzzF_discr_obj (fuel : Nat) (rng : Rng) (tag : String) (mapping : Fields)
    (v : Value) (r' : Rng)
    (h : fuzzF fuel rng (.discriminator tag mapping) = some (.ok v r')) :
    ∃ ms, v = .obj ms := by
  cases fuel with
  | zero => simp [fuzzF] at h
  | succ fuel =>
    simp only [fuzzF] at h
    rcases hch : chooseList mapping.toList rng with _ | ⟨⟨tv, sub⟩, r₁⟩
    · rw [hch] at h; simp at h
    · simp only [hch] at h
      rcases hsub : fuzzF fuel r₁ sub with _ | gr
      · rw [hsub] at h; simp at h
      · cases gr with
        | fatal => rw [hsub] at h; simp at h
        | ok v₀ r₂ =>
          rw [hsub] at h
          cases v₀ with
          | obj ms₀ =>
            simp only [Option.some.injEq] at h
            injection h with hv hr
            exact ⟨_, hv.symm⟩
          | null => simp at h
          | bool b => simp at h
          | int n => simp at h
          | float m e => simp at h
          | str s => simp at h
          | arr vs => simp at h

/-! ### The claims -/

/-- C1 (round-trip property; the code violates it): the schema
`{required x : boolean, allow-additional}` satisfies all §3 invariants
(`wfTotal`), yet for the exhibited random source the generator emits
`{"x": null}` — the additional-member loop of `fuzz_props` generated the
key `"x"` and, by last-write-wins collection into the map, overwrote the
required boolean member with a `fuzz_any` value — and that document does
not validate against the schema.  This refutes "every generated document
validates against the schema it was generated from". -/
theorem claim_C1 :
    Schema.wfTotal (.properties (.cons "x" (.type .boolean) .nil) .nil true) = true ∧
    fuzz [1, 1, 1, 88, 0, 0, 0, 0, 0]
      (.properties (.cons "x" (.type .boolean) .nil) .nil true) =
      .ok (.obj [("x", Value.null)]) [] ∧
    conformsB (.properties (.cons "x" (.type .boolean) .nil) .nil true)
      (.obj [("x", Value.null)]) = false :=
  ⟨rfl, rfl, rfl⟩

/-- C2 (counterexample to the claim as stated): the floating-point draw
the generator requests (`rand`'s `Standard` distribution) never yields a
non-finite value, for either width — refuting "for some random-source
input the generated value is non-finite (NaN or Infinity)". -/
theorem claim_C2_counterexample : ¬ C2Stated := by
  rintro ⟨rng, h | h⟩
  · rcases hn : rngNext rng with ⟨n, r⟩
    simp [gen_f64, hn, F64.isFinite] at h
  · rcases hn : rngNext rng with ⟨n, r⟩
    simp [gen_f32, hn, F64.isFinite] at h

/-- C2 (amended): for a Type(float64) (resp. Type(float32)) schema the
generator always succeeds and returns a finite JSON number of the form
m·2⁻⁵³ with m < 2⁵³ (resp. m·2⁻²⁴ with m < 2²⁴), i.e. a dyadic rational
in [0, 1); non-finite values are never produced. -/
theorem claim_C2 (rng : Rng) :
    (∃ m r', m < 2 ^ 53 ∧ fuzz rng (.type .float64) = .ok (.float m 53) r') ∧
    (∃ m r', m < 2 ^ 24 ∧ fuzz rng (.type .float32) = .ok (.float m 24) r') := by
  rcases hn : rngNext rng with ⟨n, r⟩
  constructor
  · refine ⟨n % 2 ^ 64 / 2 ^ 11, r, ?_, ?_⟩
    · rw [Nat.div_lt_iff_lt_mul (by norm_num : (0:Nat) < 2 ^ 11)]
      calc n % 2 ^ 64 < 2 ^ 64 := Nat.mod_lt _ (by norm_num)
        _ = 2 ^ 53 * 2 ^ 11 := by norm_num
    · show (fuzzF (Schema.type Ty.float64).size rng (.type .float64)).getD .fatal = _
      rw [show (Schema.type Ty.float64).size = 0 + 1 from rfl]
      simp only [fuzzF]
      simp [fuzz_f64, gen_f64, valueOfF64, hn]
  · refine ⟨n % 2 ^ 32 / 2 ^ 8, r, ?_, ?_⟩
    · rw [Nat.div_lt_iff_lt_mul (by norm_num : (0:Nat) < 2 ^ 8)]
      calc n % 2 ^ 32 < 2 ^ 32 := Nat.mod_lt _ (by norm_num)
        _ = 2 ^ 24 * 2 ^ 8 := by norm_num
    · show (fuzzF (Schema.type Ty.float32).size rng (.type .float32)).getD .fatal = _
      rw [show (Schema.type Ty.float32).size = 0 + 1 from rfl]
      simp only [fuzzF]
      simp [fuzz_f32, gen_f32, valueOfF64, hn]

/-- C3: whenever generation for a Discriminator schema succeeds, the
result is an object whose tag member equals the tag value of the chosen
mapping entry; and the tag insertion always overwrites — for every
object, looking the tag up after the insertion yields exactly the
inserted value, regardless of any member previously there. -/
theorem claim_C3 (tag : String) (mapping : Fields) (rng : Rng) (v : Value) (r' : Rng)
    (h : fuzz rng (.discriminator tag mapping) = .ok v r') :
    (∃ ms tagVal sub, v = .obj ms ∧ (tagVal, sub) ∈ mapping.toList ∧
      lookupKV ms tag = some (.str tagVal)) ∧
    (∀ (ms : List (String × Value)) (x : Value),
      lookupKV (insertKV ms tag x) tag = some x) := by
  have hF := fuzz_eq_fuzzF (.discriminator tag mapping) rng
  rw [h] at hF
  obtain ⟨fuel, hfuel⟩ : ∃ fuel, (Schema.discriminator tag mapping).size = fuel + 1 :=
    ⟨(Schema.discriminator tag mapping).size - 1,
      by have := Schema.size_pos (.discriminator tag mapping); omega⟩
  rw [hfuel] at hF
  simp only [fuzzF] at hF
  constructor
  · rcases hch : chooseList mapping.toList rng with _ | ⟨⟨tv, sub⟩, r₁⟩
    · rw [hch] at hF; simp at hF
    · simp only [hch] at hF
      rcases hsub : fuzzF fuel r₁ sub with _ | gr
      · rw [hsub] at hF; simp at hF
      · cases gr with
        | fatal => rw [hsub] at hF; simp at hF
        | ok v₀ r₂ =>
          rw [hsub] at hF
          cases v₀ with
          | obj ms₀ =>
            simp only [Option.some.injEq] at hF
            injection hF with hv hr
            subst hv
            refine ⟨_, tv, sub, rfl, chooseList_mem _ _ _ _ hch, ?_⟩
            rw [lookupKV_insertKV]; simp
          | null => simp at hF
          | bool b => simp at hF
          | int n => simp at hF
          | float m e => simp at hF
          | str s => simp at hF
          | arr vs => simp at hF
  · intro ms x
    rw [lookupKV_insertKV]; simp

theorem claim_C3_witness :
    (∃ ms tagVal sub, Value.obj [("kind", Value.str "A")] = .obj ms ∧
      (tagVal, sub) ∈ (Fields.cons "A" (.properties .nil .nil false) .nil).toList ∧
      lookupKV ms "kind" = some (.str tagVal)) ∧
    (∀ (ms : List (String × Value)) (x : Value),
      lookupKV (insertKV ms "kind" x) "kind" = some x) :=
  claim_C3 "kind" (.cons "A" (.properties .nil .nil false) .nil) [0, 0]
    (.obj [("kind", Value.str "A")]) [0] rfl

/-- C7: the generator's recursion is well-founded on the schema tree —
with any recursion-depth budget of at least the schema's size, the
fuelled generator is defined (not out of budget) and computes exactly the
total function `fuzz`, for every random source.  The schema tree itself
is passed immutably throughout (in the embedding it is a pure value). -/
theorem claim_C7 (s : Schema) (rng : Rng) (fuel : Nat) (h : s.size ≤ fuel) :
    fuzzF fuel rng s = some (fuzz rng s) :=
  fuzzF_adequate fuel s rng h

theorem claim_C7_witness : fuzzF 1 [0] Schema.empty = some (fuzz [0] Schema.empty) :=
  claim_C7 .empty [0] 1 (by decide)

/-- C8: the driver loop of `main` — `while i != num_values || num_values == 0`
— never exits when the requested count is zero (the guard holds for every
`i`); for a positive count N it runs for exactly the iterations
i = 0, …, N−1 and stops at i = N; and a completed run of N iterations
emits exactly N values, one independent top-level `fuzz` call each, in
generation order. -/
theorem claim_C8 :
    (∀ i, loopGuard i 0 = true) ∧
    (∀ numValues, 0 < numValues →
      (∀ i, i < numValues → loopGuard i numValues = true) ∧
      loopGuard numValues numValues = false) ∧
    (∀ count rng s out r', driverRun count rng s = some (out, r') →
      out.length = count) := by
  refine ⟨?_, ?_, driverRun_length⟩
  · intro i; simp [loopGuard]
  · intro N hN
    constructor
    · intro i hi
      simp [loopGuard, Nat.ne_of_lt hi]
    · simp [loopGuard, Nat.pos_iff_ne_zero.mp hN]

theorem claim_C8_witness :
    loopGuard 5 0 = true ∧ loopGuard 2 2 = false ∧
    ([Value.bool true, Value.bool false] : List Value).length = 2 :=
  ⟨claim_C8.1 5, (claim_C8.2.1 2 (by decide)).2,
    claim_C8.2.2 2 [1, 0] (.type .boolean) [Value.bool true, Value.bool false] [] rfl⟩

/-- C9: a schema node whose form the generator does not recognize (the
`_ => panic!()` arm) makes the generator abort fatally: no JSON value is
returned, for every random source. -/
theorem claim_C9 (rng : Rng) : fuzz rng .unknown = .fatal := rfl

/-- C10: for a Discriminator schema satisfying the §3 invariants — the
mapping is non-empty and maps only to Properties-form (hence
object-producing) schemas, with the invariants holding recursively —
the generator never panics: the uniform choice succeeds and the
`as_object_mut().unwrap()` receives an object, so generation returns an
object for every random source. -/
theorem claim_C10 (tag : String) (mapping : Fields)
    (hwf : Schema.wfTotal (.discriminator tag mapping) = true) (rng : Rng) :
    ∃ ms r', fuzz rng (.discriminator tag mapping) = .ok (.obj ms) r' := by
  rcases fuzz_total (.discriminator tag mapping) rng hwf with ⟨v, r', h⟩
  have hF := fuzz_eq_fuzzF (.discriminator tag mapping) rng
  rw [h] at hF
  rcases fuzzF_discr_obj _ rng tag mapping v r' hF with ⟨ms, hms⟩
  subst hms
  exact ⟨ms, r', h⟩

theorem claim_C10_witness :
    ∃ ms r', fuzz [0, 0] (.discriminator "kind"
      (.cons "A" (.properties .nil .nil false) .nil)) = .ok (.obj ms) r' :=
  claim_C10 "kind" (.cons "A" (.properties .nil .nil false) .nil) rfl [0, 0]

/-- C5: for each width in {8, 16, 32}, signed and unsigned, every value
generated for the corresponding Type schema is an integer within the full
representable range of that exact width, and every integer in that range
is attained for some random-source input. -/
theorem claim_C5 :
    ((∀ rng v r', fuzz rng (.type .uint8) = .ok v r' →
        ∃ n : Int, v = .int n ∧ 0 ≤ n ∧ n ≤ 255) ∧
      (∀ n : Int, 0 ≤ n → n ≤ 255 →
        ∃ rng r', fuzz rng (.type .uint8) = .ok (.int n) r')) ∧
    ((∀ rng v r', fuzz rng (.type .int8) = .ok v r' →
        ∃ n : Int, v = .int n ∧ -128 ≤ n ∧ n ≤ 127) ∧
      (∀ n : Int, -128 ≤ n → n ≤ 127 →
        ∃ rng r', fuzz rng (.type .int8) = .ok (.int n) r')) ∧
    ((∀ rng v r', fuzz rng (.type .uint16) = .ok v r' →
        ∃ n : Int, v = .int n ∧ 0 ≤ n ∧ n ≤ 65535) ∧
      (∀ n : Int, 0 ≤ n → n ≤ 65535 →
        ∃ rng r', fuzz rng (.type .uint16) = .ok (.int n) r')) ∧
    ((∀ rng v r', fuzz rng (.type .int16) = .ok v r' →
        ∃ n : Int, v = .int n ∧ -32768 ≤ n ∧ n ≤ 32767) ∧
      (∀ n : Int, -32768 ≤ n → n ≤ 32767 →
        ∃ rng r', fuzz rng (.type .int16) = .ok (.int n) r')) ∧
    ((∀ rng v r', fuzz rng (.type .uint32) = .ok v r' →
        ∃ n : Int, v = .int n ∧ 0 ≤ n ∧ n ≤ 4294967295) ∧
      (∀ n : Int, 0 ≤ n → n ≤ 4294967295 →
        ∃ rng r', fuzz rng (.type .uint32) = .ok (.int n) r')) ∧
    ((∀ rng v r', fuzz rng (.type .int32) = .ok v r' →
        ∃ n : Int, v = .int n ∧ -2147483648 ≤ n ∧ n ≤ 2147483647) ∧
      (∀ n : Int, -2147483648 ≤ n → n ≤ 2147483647 →
        ∃ rng r', fuzz rng (.type .int32) = .ok (.int n) r')) := by
  refine ⟨⟨?_, ?_⟩, ⟨?_, ?_⟩, ⟨?_, ?_⟩, ⟨?_, ?_⟩, ⟨?_, ?_⟩, ⟨?_, ?_⟩⟩
  · intro rng v r' h
    have hF := fuzz_eq_fuzzF (.type .uint8) rng
    rw [h, show (Schema.type Ty.uint8).size = 0 + 1 from rfl] at hF
    simp only [fuzzF] at hF
    rcases hg : gen_unsigned 8 rng with ⟨m, r₀⟩
    simp only [fuzz_u8, hg] at hF
    injection hF with h1
    injection h1 with hv hr
    subst hv
    have hb := gen_unsigned_bounds 8 rng m r₀ hg
    norm_num at hb
    exact ⟨m, rfl, by omega, by omega⟩
  · intro n h0 h1
    have hg := gen_unsigned_attain 8 n.toNat (by norm_num; omega)
    refine ⟨[n.toNat], [], ?_⟩
    show (fuzzF (Schema.type Ty.uint8).size [n.toNat] (.type .uint8)).getD .fatal = _
    rw [show (Schema.type Ty.uint8).size = 0 + 1 from rfl]
    simp only [fuzzF]
    simp [fuzz_u8, hg, Int.toNat_of_nonneg h0]
  · intro rng v r' h
    have hF := fuzz_eq_fuzzF (.type .int8) rng
    rw [h, show (Schema.type Ty.int8).size = 0 + 1 from rfl] at hF
    simp only [fuzzF] at hF
    rcases hg : gen_signed 8 rng with ⟨i, r₀⟩
    simp only [fuzz_i8, hg] at hF
    injection hF with h1
    injection h1 with hv hr
    subst hv
    have hb := gen_signed_bounds 8 (by omega) rng i r₀ hg
    norm_num at hb
    exact ⟨i, rfl, by omega, by omega⟩
  · intro n h0 h1
    rcases gen_signed_attain 8 (by omega) n (by norm_num; omega) (by norm_num; omega) with
      ⟨m, hg⟩
    refine ⟨[m], [], ?_⟩
    show (fuzzF (Schema.type Ty.int8).size [m] (.type .int8)).getD .fatal = _
    rw [show (Schema.type Ty.int8).size = 0 + 1 from rfl]
    simp only [fuzzF]
    simp [fuzz_i8, hg]
  · intro rng v r' h
    have hF := fuzz_eq_fuzzF (.type .uint16) rng
    rw [h, show (Schema.type Ty.uint16).size = 0 + 1 from rfl] at hF
    simp only [fuzzF] at hF
    rcases hg : gen_unsigned 16 rng with ⟨m, r₀⟩
    simp only [fuzz_u16, hg] at hF
    injection hF with h1
    injection h1 with hv hr
    subst hv
    have hb := gen_unsigned_bounds 16 rng m r₀ hg
    norm_num at hb
    exact ⟨m, rfl, by omega, by omega⟩
  · intro n h0 h1
    have hg := gen_unsigned_attain 16 n.toNat (by norm_num; omega)
    refine ⟨[n.toNat], [], ?_⟩
    show (fuzzF (Schema.type Ty.uint16).size [n.toNat] (.type .uint16)).getD .fatal = _
    rw [show (Schema.type Ty.uint16).size = 0 + 1 from rfl]
    simp only [fuzzF]
    simp [fuzz_u16, hg, Int.toNat_of_nonneg h0]
  · intro rng v r' h
    have hF := fuzz_eq_fuzzF (.type .int16) rng
    rw [h, show (Schema.type Ty.int16).size = 0 + 1 from rfl] at hF
    simp only [fuzzF] at hF
    rcases hg : gen_signed 16 rng with ⟨i, r₀⟩
    simp only [fuzz_i16, hg] at hF
    injection hF with h1
    injection h1 with hv hr
    subst hv
    have hb := gen_signed_bounds 16 (by omega) rng i r₀ hg
    norm_num at hb
    exact ⟨i, rfl, by omega, by omega⟩
  · intro n h0 h1
    rcases gen_signed_attain 16 (by omega) n (by norm_num; omega) (by norm_num; omega) with
      ⟨m, hg⟩
    refine ⟨[m], [], ?_⟩
    show (fuzzF (Schema.type Ty.int16).size [m] (.type .int16)).getD .fatal = _
    rw [show (Schema.type Ty.int16).size = 0 + 1 from rfl]
    simp only [fuzzF]
    simp [fuzz_i16, hg]
  · intro rng v r' h
    have hF := fuzz_eq_fuzzF (.type .uint32) rng
    rw [h, show (Schema.type Ty.uint32).size = 0 + 1 from rfl] at hF
    simp only [fuzzF] at hF
    rcases hg : gen_unsigned 32 rng with ⟨m, r₀⟩
    simp only [fuzz_u32, hg] at hF
    injection hF with h1
    injection h1 with hv hr
    subst hv
    have hb := gen_unsigned_bounds 32 rng m r₀ hg
    norm_num at hb
    exact ⟨m, rfl, by omega, by omega⟩
  · intro n h0 h1
    have hg := gen_unsigned_attain 32 n.toNat (by norm_num; omega)
    refine ⟨[n.toNat], [], ?_⟩
    show (fuzzF (Schema.type Ty.uint32).size [n.toNat] (.type .uint32)).getD .fatal = _
    rw [show (Schema.type Ty.uint32).size = 0 + 1 from rfl]
    simp only [fuzzF]
    simp [fuzz_u32, hg, Int.toNat_of_nonneg h0]
  · intro rng v r' h
    have hF := fuzz_eq_fuzzF (.type .int32) rng
    rw [h, show (Schema.type Ty.int32).size = 0 + 1 from rfl] at hF
    simp only [fuzzF] at hF
    rcases hg : gen_signed 32 rng with ⟨i, r₀⟩
    simp only [fuzz_i32, hg] at hF
    injection hF with h1
    injection h1 with hv hr
    subst hv
    have hb := gen_signed_bounds 32 (by omega) rng i r₀ hg
    norm_num at hb
    exact ⟨i, rfl, by omega, by omega⟩
  · intro n h0 h1
    rcases gen_signed_attain 32 (by omega) n (by norm_num; omega) (by norm_num; omega) with
      ⟨m, hg⟩
    refine ⟨[m], [], ?_⟩
    show (fuzzF (Schema.type Ty.int32).size [m] (.type .int32)).getD .fatal = _
    rw [show (Schema.type Ty.int32).size = 0 + 1 from rfl]
    simp only [fuzzF]
    simp [fuzz_i32, hg]

theorem claim_C5_witness :
    (∃ n : Int, Value.int 5 = .int n ∧ 0 ≤ n ∧ n ≤ 255) ∧
    (∃ rng r', fuzz rng (.type .int16) = .ok (.int (-5)) r') :=
  ⟨claim_C5.1.1 [5] (.int 5) [] rfl,
    claim_C5.2.2.2.1.2 (-5) (by norm_num) (by norm_num)⟩

/-- C6: for a Type(string) schema, every generated value is a string of
length at most 7 whose characters are all printable ASCII (code points
32–126), and both bounds of the length range [0, 7] are attained for
some random-source input. -/
theorem claim_C6 :
    (∀ rng v r', fuzz rng (.type .string) = .ok v r' →
      ∃ s : String, v = .str s ∧ s.length ≤ 7 ∧
        ∀ c ∈ s.data, 32 ≤ c.toNat ∧ c.toNat ≤ 126) ∧
    (∃ rng r', fuzz rng (.type .string) = .ok (.str "") r') ∧
    (∃ rng s r', fuzz rng (.type .string) = .ok (.str s) r' ∧ s.length = 7) := by
  refine ⟨?_, ⟨[0], [], rfl⟩,
    ⟨[7, 0, 0, 0, 0, 0, 0, 0],
      String.mk [Char.ofNat 32, Char.ofNat 32, Char.ofNat 32, Char.ofNat 32,
        Char.ofNat 32, Char.ofNat 32, Char.ofNat 32], [], rfl, rfl⟩⟩
  intro rng v r' h
  have hF := fuzz_eq_fuzzF (.type .string) rng
  rw [h, show (Schema.type Ty.string).size = 0 + 1 from rfl] at hF
  simp only [fuzzF] at hF
  rcases hfs : fuzz_str rng with ⟨s, r₀⟩
  simp only [fuzz_string, hfs] at hF
  injection hF with h1
  injection h1 with hv hr
  subst hv
  have hspec := fuzz_str_spec rng
  rw [hfs] at hspec
  exact ⟨s, rfl, hspec.1, hspec.2⟩

theorem claim_C6_witness :
    ∃ s : String, Value.str "" = .str s ∧ s.length ≤ 7 ∧
      ∀ c ∈ s.data, 32 ≤ c.toNat ∧ c.toNat ≤ 126 :=
  claim_C6.1 [0] (.str "") [] rfl

/-- C4 (counterexample to the claim as stated): with allow-additional
true, the additional-member loop can generate a key colliding with a
required key and overwrite its value (last-write-wins), so the required
member need not conform; the claim as stated is false.  The refuting
instance is the schema `{required x : boolean, allow-additional}` with a
random source making the loop insert `("x", null)`. -/
theorem claim_C4_counterexample : ¬ C4Stated := by
  intro h
  have h2 := h (.cons "x" (.type .boolean) .nil) .nil true
    [1, 1, 1, 88, 0, 0, 0, 0, 0] (.obj [("x", Value.null)]) [] rfl rfl
  rcases h2 with ⟨ms, hms, hreq, _, _⟩
  injection hms with hms
  subst hms
  rcases hreq "x" (.type .boolean) (by simp [Fields.toList]) with ⟨w, hw, hc⟩
  have hlk : lookupKV [("x", Value.null)] "x" = some Value.null := rfl
  rw [hlk] at hw
  injection hw with hw
  rw [← hw] at hc
  simp [conformsB] at hc

/-- C4 (amended): for a Properties schema with disjoint required and
optional key maps whose allow-additional flag is false — the case in
which no key collision can occur — and whose sub-schemas satisfy the
additional-free well-formedness, the generated value is an object in
which every required key is present with a value generated from (hence
conforming to) its sub-schema, every optional key, when present, maps to
a value generated from (hence conforming to) its sub-schema, and no key
outside required ∪ optional appears.  With allow-additional true an
additional member may overwrite a required or optional member
(`claim_C4_counterexample`), which is all the original claim loses. -/
theorem claim_C4 (req opt : Fields) (rng : Rng) (v : Value) (r' : Rng)
    (hnd : keysNodup (req.keys ++ opt.keys) = true)
    (hwfreq : req.wfAllNoAdd = true) (hwfopt : opt.wfAllNoAdd = true)
    (h : fuzz rng (.properties req opt false) = .ok v r') :
    ∃ ms, v = .obj ms ∧
      (∀ k sub, (k, sub) ∈ req.toList →
        ∃ w, lookupKV ms k = some w ∧ conformsB sub w = true ∧
          ∃ r₁ r₂, fuzz r₁ sub = .ok w r₂) ∧
      (∀ k sub w, (k, sub) ∈ opt.toList → lookupKV ms k = some w →
        conformsB sub w = true ∧ ∃ r₁ r₂, fuzz r₁ sub = .ok w r₂) ∧
      (∀ k, k ∈ keysOf ms → k ∈ req.keys ++ opt.keys) := by
  have hF := fuzz_eq_fuzzF (.properties req opt false) rng
  rw [h] at hF
  obtain ⟨fuel, hfuel⟩ : ∃ fuel, (Schema.properties req opt false).size = fuel + 1 :=
    ⟨(Schema.properties req opt false).size - 1,
      by have := Schema.size_pos (.properties req opt false); omega⟩
  have hfuelsz : 1 + req.sizeF + opt.sizeF = fuel + 1 := by
    rw [← hfuel]; simp [Schema.size]
  rw [hfuel] at hF
  simp only [fuzzF] at hF
  rcases hreq : props_req (fuzzF fuel) req rng with _ | gr
  · rw [hreq] at hF; simp at hF
  · cases gr with
    | fatal => rw [hreq] at hF; simp at hF
    | ok rvals r₁ =>
      simp only [hreq] at hF
      rcases hopt : props_opt (fuzzF fuel) opt r₁ with _ | gr₂
      · simp [hopt] at hF
      · cases gr₂ with
        | fatal => simp [hopt] at hF
        | ok ovals r₂ =>
          simp only [hopt] at hF
          rw [if_neg (by simp)] at hF
          simp only [Option.some.injEq] at hF
          injection hF with hv hr
          subst hv
          rcases props_req_spec (fuzzF fuel) req rng rvals r₁ hreq with ⟨hkeysR, hmemR⟩
          rcases props_opt_spec (fuzzF fuel) opt r₁ ovals r₂ hopt with ⟨hkeysO, hmemO⟩
          rcases keysNodup_append req.keys opt.keys hnd with ⟨hndR, hndO, hdisj⟩
          have hkeysapp : keysOf (rvals ++ ovals) =
              List.map Prod.fst rvals ++ List.map Prod.fst ovals := by
            simp [keysOf]
          have hndO' : keysNodup (List.map Prod.fst ovals) = true := by
            rw [keysNodup_iff_nodup]
            exact hkeysO.nodup ((keysNodup_iff_nodup _).mp hndO)
          have hdisj' : ∀ k ∈ List.map Prod.fst rvals, k ∉ List.map Prod.fst ovals := by
            intro k hk hk'
            rw [hkeysR] at hk
            exact hdisj k hk (hkeysO.subset hk')
          have hmsnd : keysNodup (keysOf (rvals ++ ovals)) = true := by
            rw [hkeysapp]
            exact keysNodup_append_intro _ _ (by rw [hkeysR]; exact hndR) hndO' hdisj'
          have hlook : ∀ k, lookupKV (buildObj (rvals ++ ovals)) k =
              (lookupKV rvals k).or (lookupKV ovals k) := by
            intro k
            rw [lookupKV_buildObj, lookupKV_reverse_nodup _ _ hmsnd, lookupKV_append]
          have hszreq : req.sizeF ≤ fuel := by
            have := Fields.sizeF_pos opt; omega
          have hszopt : opt.sizeF ≤ fuel := by
            have := Fields.sizeF_pos req; omega
          refine ⟨buildObj (rvals ++ ovals), rfl, ?_, ?_, ?_⟩
          · intro k sub hmem
            have hkin : k ∈ List.map Prod.fst rvals := by
              rw [hkeysR]
              exact List.mem_map_of_mem Prod.fst hmem
            rcases lookupKV_isSome_of_mem rvals k hkin with ⟨w, hw⟩
            refine ⟨w, ?_, ?_, ?_⟩
            · rw [hlook, hw]; rfl
            · rcases hmemR k w (lookupKV_mem _ _ _ hw) with ⟨sub', hsub', r₁', r₂', hout⟩
              have hsubeq : sub' = sub :=
                assoc_unique req.toList k sub' sub hndR hsub' hmem
              subst hsubeq
              have hlt := Fields.mem_size req k sub' hmem
              exact fuzz_conforms_aux fuel sub' r₁' w r₂' (by omega)
                (Fields.wfAllNoAdd_mem req k sub' hwfreq hmem) hout
            · rcases hmemR k w (lookupKV_mem _ _ _ hw) with ⟨sub', hsub', r₁', r₂', hout⟩
              have hsubeq : sub' = sub :=
                assoc_unique req.toList k sub' sub hndR hsub' hmem
              subst hsubeq
              have hlt := Fields.mem_size req k sub' hmem
              have hA := fuzzF_adequate fuel sub' r₁' (by omega)
              rw [hout] at hA
              injection hA with hA
              exact ⟨r₁', r₂', hA.symm⟩
          · intro k sub w hmem hlk
            rw [hlook] at hlk
            have hknotR : k ∉ List.map Prod.fst rvals := by
              intro hk
              rw [hkeysR] at hk
              exact hdisj k hk (List.mem_map_of_mem Prod.fst hmem)
            have hnone : lookupKV rvals k = none :=
              (lookupKV_eq_none_iff rvals k).mpr (by simpa [keysOf] using hknotR)
            rw [hnone] at hlk
            have hlk' : lookupKV ovals k = some w := by simpa [Option.or] using hlk
            rcases hmemO k w (lookupKV_mem _ _ _ hlk') with ⟨sub', hsub', r₁', r₂', hout⟩
            have hsubeq : sub' = sub :=
              assoc_unique opt.toList k sub' sub hndO hsub' hmem
            subst hsubeq
            have hlt := Fields.mem_size opt k sub' hmem
            constructor
            · exact fuzz_conforms_aux fuel sub' r₁' w r₂' (by omega)
                (Fields.wfAllNoAdd_mem opt k sub' hwfopt hmem) hout
            · have hA := fuzzF_adequate fuel sub' r₁' (by omega)
              rw [hout] at hA
              injection hA with hA
              exact ⟨r₁', r₂', hA.symm⟩
          · intro k hk
            rcases lookupKV_isSome_of_mem _ k hk with ⟨w, hw⟩
            rw [lookupKV_buildObj] at hw
            have hmem0 := List.mem_reverse.mp (lookupKV_mem _ _ _ hw)
            rcases List.mem_append.mp hmem0 with hmem | hmem
            · have hkr : k ∈ List.map Prod.fst rvals :=
                List.mem_map_of_mem Prod.fst hmem
              rw [hkeysR] at hkr
              exact List.mem_append_left _ hkr
            · exact List.mem_append_right _
                (hkeysO.subset (List.mem_map_of_mem Prod.fst hmem))

theorem claim_C4_witness :
    ∃ ms, Value.obj [("x", Value.bool true)] = .obj ms ∧
      (∀ k sub, (k, sub) ∈ (Fields.cons "x" (.type .boolean) .nil).toList →
        ∃ w, lookupKV ms k = some w ∧ conformsB sub w = true ∧
          ∃ r₁ r₂, fuzz r₁ sub = .ok w r₂) ∧
      (∀ k sub w, (k, sub) ∈ (Fields.nil).toList → lookupKV ms k = some w →
        conformsB sub w = true ∧ ∃ r₁ r₂, fuzz r₁ sub = .ok w r₂) ∧
      (∀ k, k ∈ keysOf ms →
        k ∈ (Fields.cons "x" (.type .boolean) .nil).keys ++ (Fields.nil).keys) :=
  claim_C4 (.cons "x" (.type .boolean) .nil) .nil [1] (.obj [("x", Value.bool true)]) []
    rfl rfl rfl rfl
